import Mathlib

/-
Verification development for the laika stream-correlation engine.

The definitions below are shallow embeddings of the Rust sources:
  * `laika_combiner/src/utils/extract_json.rs`   (JSON path extraction)
  * `laika_combiner/src/matcher/mod.rs`          (event classification)
  * `laika_combiner/src/event/context.rs`        (event contexts)
  * `src/event/mod.rs`                           (events, triggers, ordering)
  * `laika_combiner/src/rules.rs`                (rule evaluation)
  * `laika_combiner/src/config/builder.rs`       (timing configuration)
  * `laika_combiner/src/config/mod.rs`           (correlation keys)
  * `laika_combiner/src/event_processor/processor.rs` (action collection)
  * `src/event_handler.rs`                       (expiry handling)
  * `laika_combiner/src/timing.rs`               (expiry queue)
  * `src/template/values.rs`, `laika_combiner/src/template/mod.rs` (templates)

Machine integers (`i64` timestamps, second counts) are modelled as `Int`;
JSON numbers are modelled as integers, as no claim involves floating-point
payloads.  Fallible Rust functions returning `Result<T, E>` are modelled as
`Except E T`.
-/

/-- JSON values as handled by `serde_json::Value`.  Objects are association
lists in entry order; numbers are modelled as integers. -/
inductive Json where
  | null : Json
  | bool : Bool → Json
  | num : Int → Json
  | str : String → Json
  | arr : List Json → Json
  | obj : List (String × Json) → Json

/-- `serde_json::Value::as_str`: `some` exactly on JSON strings. -/
def Json.asStr : Json → Option String
  | .str s => some s
  | _ => none

/-- `serde_json::Value::get(&str)`: field lookup, defined only on objects. -/
def Json.getField : Json → String → Option Json
  | .obj kvs, key => (kvs.find? (fun kv => kv.fst = key)).map (fun kv => kv.snd)
  | _, _ => none

/-- The escape of one character in a `serde_json` string serialization. -/
def jsonEscapeChar (c : Char) : String :=
  if c = '"' then "\\\""
  else if c = '\\' then "\\\\"
  else if c = '\x08' then "\\b"
  else if c = '\x09' then "\\t"
  else if c = '\x0a' then "\\n"
  else if c = '\x0c' then "\\f"
  else if c = '\x0d' then "\\r"
  else if c.toNat < 32 then
    "\\u00" ++ String.singleton (Nat.digitChar (c.toNat / 16))
      ++ String.singleton (Nat.digitChar (c.toNat % 16))
  else String.singleton c

/-- `serde_json` string escaping, character by character. -/
def jsonEscape (s : String) : String :=
  String.join (s.data.map jsonEscapeChar)

mutual
/-- `serde_json::Value::to_string()`: the compact JSON serialization
(`Display` for `Value`). -/
def jsonToString : Json → String
  | .null => "null"
  | .bool b => if b then "true" else "false"
  | .num n => toString n
  | .str s => "\"" ++ jsonEscape s ++ "\""
  | .arr xs => "[" ++ jsonArrToString xs ++ "]"
  | .obj kvs => "\x7b" ++ jsonObjToString kvs ++ "\x7d"

/-- Comma-separated serialization of array elements. -/
def jsonArrToString : List Json → String
  | [] => ""
  | [x] => jsonToString x
  | x :: rest => jsonToString x ++ "," ++ jsonArrToString rest

/-- Comma-separated serialization of object entries. -/
def jsonObjToString : List (String × Json) → String
  | [] => ""
  | [kv] => "\"" ++ jsonEscape kv.fst ++ "\":" ++ jsonToString kv.snd
  | kv :: rest =>
      "\"" ++ jsonEscape kv.fst ++ "\":" ++ jsonToString kv.snd ++ ","
        ++ jsonObjToString rest
end

/-- `LaikaError`: the error enum of the combiner crate.  The combiner's own
`errors.rs` is not among the provided sources; the variants are those
constructed or matched by the provided combiner code, together with the
shared variants of `src/errors.rs` (the source spells the input/output
variant without the `Err` suffix). -/
inductive LaikaError where
  | Generic : String → LaikaError
  | IOErr : String → LaikaError
  | EventMatchError : LaikaError
  | FieldNotFound : String → String → LaikaError
  | InvalidEventGroup : LaikaError
  | RuleEvaluationError : String → LaikaError
  | TemplateError : String → LaikaError
deriving DecidableEq, Repr

/-- `str::split('.')` over the characters of a path: the segments between
dots, in order (empty segments included, as in Rust). -/
def splitDots : List Char → List Char → List String
  | [], acc => [String.mk acc]
  | c :: rest, acc =>
      if c = '.' then String.mk acc :: splitDots rest []
      else splitDots rest (acc ++ [c])

/-- `str::strip_prefix('$')` composed with `unwrap_or`: drop one leading
dollar sign if present. -/
def stripDollar : List Char → List Char
  | '$' :: rest => rest
  | l => l

/-- `utils/extract_json.rs` `extract_json_field`, descent part: walk the
non-empty path segments, failing with `FieldNotFound` on a missing field. -/
def extractGo (field_path : String) : List String → Json → Except LaikaError Json
  | [], current => .ok current
  | part :: rest, current =>
      match current.getField part with
      | some next => extractGo field_path rest next
      | none => .error (.FieldNotFound part field_path)

/-- `utils/extract_json.rs` `extract_json_field`: strip one leading `$`,
split on `.`, drop empty segments, then descend field by field. -/
def extract_json_field (value : Json) (field_path : String) : Except LaikaError Json :=
  let parts := (splitDots (stripDollar field_path.data) []).filter (fun p => p ≠ "")
  extractGo field_path parts value

example : extract_json_field (.obj [("a", .obj [("b", .num 3)])]) ("$.a.b") = .ok (.num 3) := by
  rfl

example : extract_json_field (.obj [("a", .num 1)]) ("$.c")
    = .error (.FieldNotFound ("c") ("$.c")) := by rfl

/-- `src/event/mod.rs` `CorrelatedEvent`.  `received` is the unix timestamp
in seconds. -/
structure CorrelatedEvent where
  received : Int
  correlation_id : String
  event_type : String
  data : Json

/-- `src/event/mod.rs` `NonCorrelatedEvent`. -/
structure NonCorrelatedEvent where
  received : Int
  event_id : String
  event_type : String
  data : Json

/-- `src/event/mod.rs` `Event`. -/
inductive Event where
  | Correlated : CorrelatedEvent → Event
  | NonCorrelated : NonCorrelatedEvent → Event

/-- `Event::received`. -/
def Event.received : Event → Int
  | .Correlated e => e.received
  | .NonCorrelated e => e.received

/-- `Event::event_type`, of type `MaybeEventType = Option<String>`; both
variants carry a type, so the result is always `some`. -/
def Event.eventType? : Event → Option String
  | .Correlated e => some e.event_type
  | .NonCorrelated e => some e.event_type

/-- The string unwrapped from `Event::event_type` where the source calls
`.expect(..)` (the `expect` never fires: see `Event.eventType?`). -/
def Event.eventTypeStr : Event → String
  | .Correlated e => e.event_type
  | .NonCorrelated e => e.event_type

/-- `impl Ord for Event`: events compare by `received` alone.  This is the
Boolean `≤` used for the stable sort in `EventContext::try_from`. -/
def eventLe (a b : Event) : Bool := a.received ≤ b.received

/-- `broker.rs` `EventExpiry`; `Ord` is derived, hence lexicographic in
field order `(expires_at, correlation_id, event_rule)`. -/
structure EventExpiry where
  expires_at : Int
  correlation_id : String
  event_rule : String
deriving DecidableEq, Repr

/-- Rust's derived `Ord` for `String` compares code points
lexicographically; here as a Boolean strict comparison on the character
list. -/
def charListLt : List Char → List Char → Bool
  | [], [] => false
  | [], _ :: _ => true
  | _ :: _, [] => false
  | a :: as, b :: bs =>
      if a.toNat < b.toNat then true
      else if b.toNat < a.toNat then false
      else charListLt as bs

/-- Strict `String` order (Rust `Ord`). -/
def strLt (a b : String) : Bool := charListLt a.data b.data

/-- Non-strict `String` order (Rust `Ord`). -/
def strLe (a b : String) : Bool := strLt a b || decide (a = b)

/-- The derived `Ord` of `EventExpiry` as a Boolean `≤`:
lexicographic on `(expires_at, correlation_id, event_rule)`. -/
def expiryLe (a b : EventExpiry) : Bool :=
  decide (a.expires_at < b.expires_at)
    || (decide (a.expires_at = b.expires_at)
        && (strLt a.correlation_id b.correlation_id
            || (decide (a.correlation_id = b.correlation_id)
                && strLe a.event_rule b.event_rule)))

/-- `src/event/mod.rs` `Trigger`. -/
inductive Trigger where
  | ReceivedEvent : Event → Trigger
  | TimerExpired : EventExpiry → Trigger

/-- `event/context.rs` `EventContext`: the ordered sequence plus the
by-type index (the `HashMap` is modelled as an association list; its
iteration order is irrelevant to every claim below). -/
structure EventContext where
  sequence : List Event
  events : List (String × List Event)

/-- `HashMap::entry(t).or_default().push(e)`: append to the entry for `t`,
creating it if absent. -/
def insertByType : List (String × List Event) → String → Event → List (String × List Event)
  | [], t, e => [(t, [e])]
  | (k, es) :: rest, t, e =>
      if k = t then (k, es ++ [e]) :: rest else (k, es) :: insertByType rest t e

/-- The index-building loop of `EventContext::try_from`: every event must
carry a type, otherwise the construction fails with a `Generic` error. -/
def buildEventsIndex : List Event → List (String × List Event) →
    Except LaikaError (List (String × List Event))
  | [], m => .ok m
  | e :: rest, m =>
      match e.eventType? with
      | some t => buildEventsIndex rest (insertByType m t e)
      | none => .error (.Generic ("EventContexts can only be built from events with types"))

/-- `event/context.rs` `impl TryFrom<Vec<Event>> for EventContext`: sort
(stably, by `received`), then build the by-type index. -/
def EventContext.tryFrom (value : List Event) : Except LaikaError EventContext :=
  let sequence := value.mergeSort eventLe
  (buildEventsIndex sequence []).map (fun events => ⟨sequence, events⟩)

/-- `template/error.rs` `TemplateError`. -/
inductive TemplateError where
  | NoMappingFound : TemplateError
  | KeyExpected : TemplateError
  | IncorrectMatchLength : Nat → Nat → TemplateError
  | NoTokensFound : TemplateError
  | TooManyTokensFound : TemplateError
  | InvalidTokenArrangement : TemplateError
  | UnexpectedToken : Nat → TemplateError
  | UnclosedTemplate : Nat → TemplateError
  | RenderError : String → TemplateError
deriving DecidableEq, Repr

/-- The `Display` rendering of `LaikaError` (`src/errors.rs`, via
`thiserror`); used where the source calls `.to_string()` on an error.
Variants whose display is not fixed by the provided sources render their
payload. -/
def laikaErrorToString : LaikaError → String
  | .Generic s => "Generic: " ++ s
  | .IOErr s => "IOError: " ++ s
  | .EventMatchError => "Event did not match "
  | .FieldNotFound a b => "Field " ++ a ++ " not found in data at path " ++ b
  | .InvalidEventGroup => "More than 1 NonCorrelatedEvent was submitted in an event batch"
  | .RuleEvaluationError s => s
  | .TemplateError s => s

/-- `src/template/values.rs` `TemplatedValue`.  The source fields are
called `prefix` and `postfix`; they are named `pre` and `post` here. -/
structure TemplatedValue where
  pre : Option String
  template_fields : List String
  post : Option String
deriving DecidableEq, Repr

mutual
/-- `TemplatedValue::format_json_value`: human-readable rendering of a JSON
value (strings without quotes, arrays as `[a, b]`, objects as `{k: v}`). -/
def format_json_value : Json → String
  | .null => "null"
  | .bool b => if b then "true" else "false"
  | .num n => toString n
  | .str s => s
  | .arr xs => "[" ++ formatArrItems xs ++ "]"
  | .obj kvs => "\x7b" ++ formatObjItems kvs ++ "\x7d"

/-- The `", "`-joined items of an array in `format_json_value`. -/
def formatArrItems : List Json → String
  | [] => ""
  | [x] => format_json_value x
  | x :: rest => format_json_value x ++ ", " ++ formatArrItems rest

/-- The `", "`-joined `k: v` items of `TemplatedValue::format_object`. -/
def formatObjItems : List (String × Json) → String
  | [] => ""
  | [kv] => kv.fst ++ ": " ++ format_json_value kv.snd
  | kv :: rest => kv.fst ++ ": " ++ format_json_value kv.snd ++ ", " ++ formatObjItems rest
end

/-- `TemplatedValue::render`: extract at the dotted path and wrap the
formatted value between the literal parts. -/
def TemplatedValue.render (tv : TemplatedValue) (json : Json) : Except TemplateError String :=
  match extract_json_field json (String.intercalate "." tv.template_fields) with
  | .error e => .error (.RenderError (laikaErrorToString e))
  | .ok v =>
      .ok ((tv.pre.getD "") ++ format_json_value v ++ (tv.post.getD ""))

/-- `src/template/values.rs` `TemplateValue`. -/
inductive TemplateValue where
  | Raw : String → TemplateValue
  | Template : TemplatedValue → TemplateValue
deriving DecidableEq, Repr

/-- `TemplateValue::render`. -/
def TemplateValue.render : TemplateValue → Json → Except TemplateError String
  | .Raw raw_string, _ => .ok raw_string
  | .Template templated_value, json => templated_value.render json

/-- `src/template/values.rs` `Token`. -/
inductive Token where
  | Text : String → Token
  | TemplateStart : Token
  | TemplateIdentifier : String → Token
  | TemplateDot : Token
  | TemplateEnd : Token
deriving DecidableEq, Repr

/-- The lexer's template-start test:
`ch == '$' && peek == '{' && nth(1) == '{'`. -/
def markerAt : List Char → Bool
  | '$' :: '\x7b' :: '\x7b' :: _ => true
  | _ => false

/-- The literal characters `$`, `{`, `{` pushed back into the text buffer
when a template marker turns out to be malformed. -/
def markerText : List Char := ['$', '\x7b', '\x7b']

/-- The whitespace-skipping loops of the lexer.  (Rust `char::is_whitespace`
is Unicode-aware; `Char.isWhitespace` models its ASCII fragment, which all
claims stay within.) -/
def skipWs : List Char → List Char
  | [] => []
  | c :: rest => if c.isWhitespace then skipWs rest else c :: rest

theorem skipWs_length (l : List Char) : (skipWs l).length ≤ l.length := by
  induction l with
  | nil => simp [skipWs]
  | cons c rest ih =>
      simp only [skipWs]
      split
      · exact Nat.le_succ_of_le ih
      · exact Nat.le_refl _

/-- The identifier-and-dot collection loop of the lexer: consume
alphanumerics, underscores, dots and unexpected characters, stopping (not
consuming) at whitespace or a closing brace.  Returns the emitted tokens
and the unconsumed remainder.  (Rust `char::is_alphanumeric` is
Unicode-aware; `Char.isAlphanum` models its ASCII fragment.) -/
def collectIdents : List Char → List Char → (List Token × List Char)
  | [], identifier =>
      (if identifier.isEmpty then [] else [Token.TemplateIdentifier (String.mk identifier)], [])
  | c :: rest, identifier =>
      if c.isAlphanum || c = '_' then collectIdents rest (identifier ++ [c])
      else if c = '.' then
        let pre := if identifier.isEmpty then [] else
          [Token.TemplateIdentifier (String.mk identifier)]
        let (toks, rem) := collectIdents rest []
        (pre ++ Token.TemplateDot :: toks, rem)
      else if c.isWhitespace || c = '\x7d' then
        (if identifier.isEmpty then [] else [Token.TemplateIdentifier (String.mk identifier)],
          c :: rest)
      else collectIdents rest (identifier ++ [c])

theorem collectIdents_length (l : List Char) :
    ∀ identifier, (collectIdents l identifier).2.length ≤ l.length := by
  induction l with
  | nil => intro identifier; simp [collectIdents]
  | cons c rest ih =>
      intro identifier
      simp only [collectIdents]
      split
      · exact Nat.le_succ_of_le (ih _)
      · split
        · have := ih []
          cases h : collectIdents rest [] with
          | mk toks rem =>
              simp only [h] at this ⊢
              exact Nat.le_succ_of_le this
        · split
          · exact Nat.le_refl _
          · exact Nat.le_succ_of_le (ih _)

/-- `src/template/values.rs` `lex`, as a recursion over the remaining
characters with the pending literal text as accumulator.  The template
branch consumes `$` and the two opening braces, skips whitespace, collects
identifier/dot tokens, skips whitespace, and then checks for the two
closing braces exactly as the source's short-circuiting
`chars.next() == Some('}') && chars.next() == Some('}')` does: on a
malformed close the consumed characters are dropped and the literal `${{`
is pushed back into the text buffer. -/
def lexGo (chars : List Char) (current_text : List Char) : List Token :=
  match chars with
  | [] => if current_text.isEmpty then [] else [Token.Text (String.mk current_text)]
  | c :: rest =>
      if markerAt (c :: rest) then
        let pre := if current_text.isEmpty then [] else [Token.Text (String.mk current_text)]
        match h2 : skipWs (collectIdents (skipWs (rest.drop 2)) []).2 with
        | '\x7d' :: '\x7d' :: rest2 =>
            pre ++ Token.TemplateStart :: (collectIdents (skipWs (rest.drop 2)) []).1
              ++ Token.TemplateEnd :: lexGo rest2 []
        | '\x7d' :: _ :: rest2 =>
            pre ++ Token.TemplateStart :: (collectIdents (skipWs (rest.drop 2)) []).1
              ++ lexGo rest2 markerText
        | ['\x7d'] =>
            pre ++ Token.TemplateStart :: (collectIdents (skipWs (rest.drop 2)) []).1
              ++ lexGo [] markerText
        | _ :: rest1 =>
            pre ++ Token.TemplateStart :: (collectIdents (skipWs (rest.drop 2)) []).1
              ++ lexGo rest1 markerText
        | [] =>
            pre ++ Token.TemplateStart :: (collectIdents (skipWs (rest.drop 2)) []).1
              ++ lexGo [] markerText
      else lexGo rest (current_text ++ [c])
termination_by chars.length
decreasing_by
  all_goals simp only [List.length_cons, List.length_nil]
  all_goals try omega
  all_goals
    have ha := skipWs_length (collectIdents (skipWs (rest.drop 2)) []).2
  all_goals
    have hb := collectIdents_length (skipWs (rest.drop 2)) []
  all_goals
    have hc := skipWs_length (rest.drop 2)
  all_goals
    have hd : (rest.drop 2).length = rest.length - 2 := by simp
  all_goals
    have he := congrArg List.length h2
  all_goals simp only [List.length_cons, List.length_nil] at he
  all_goals omega

/-- `src/template/values.rs` `lex` applied to a string. -/
def lex (input : String) : List Token := lexGo input.data []

/-- The field-extraction loop inside `parse`'s `TemplateStart` branch:
scan from absolute index `j`, collecting identifiers, skipping dots,
stopping after `TemplateEnd`.  `i` is the index of the opening
`TemplateStart`, used for the `UnclosedTemplate` error; a `Text` or
`TemplateStart` token yields `UnexpectedToken` at its index.  Returns the
fields, the tokens after the `TemplateEnd`, and the next index. -/
def collectFields (i : Nat) : List Token → Nat → List String →
    Except TemplateError (List String × List Token × Nat)
  | [], _, _ => .error (.UnclosedTemplate i)
  | Token.TemplateIdentifier id :: rest, j, fields =>
      collectFields i rest (j + 1) (fields ++ [id])
  | Token.TemplateDot :: rest, j, fields => collectFields i rest (j + 1) fields
  | Token.TemplateEnd :: rest, j, fields => .ok (fields, rest, j + 1)
  | _ :: _, j, _ => .error (.UnexpectedToken j)

theorem collectFields_length (i : Nat) :
    ∀ (toks : List Token) (j : Nat) (fields fs : List String) (rest : List Token) (j' : Nat),
      collectFields i toks j fields = .ok (fs, rest, j') → rest.length ≤ toks.length := by
  intro toks
  induction toks with
  | nil => intro j fields fs rest j' h; simp [collectFields] at h
  | cons t rest0 ih =>
      intro j fields fs rest j' h
      cases t with
      | Text s => simp [collectFields] at h
      | TemplateStart => simp [collectFields] at h
      | TemplateIdentifier id =>
          simp only [collectFields] at h
          exact Nat.le_succ_of_le (ih _ _ _ _ _ h)
      | TemplateDot =>
          simp only [collectFields] at h
          exact Nat.le_succ_of_le (ih _ _ _ _ _ h)
      | TemplateEnd =>
          simp only [collectFields] at h
          cases h
          simp

/-- `src/template/values.rs` `parse`, as a recursion over the remaining
tokens.  `i` is the absolute index of the head token; `buffer` holds the
values built so far, in order.  A `Text` token becomes the postfix of an
immediately preceding template value that has none, otherwise a `Raw`
value; a `TemplateStart` token collects its fields up to `TemplateEnd`
and pops a directly preceding `Raw` value as its prefix; stray
identifier/dot/end tokens are skipped. -/
def parseGo (tokens : List Token) (i : Nat) (buffer : List TemplateValue) :
    Except TemplateError (List TemplateValue) :=
  match tokens with
  | [] => .ok buffer
  | Token.Text text :: rest =>
      match buffer.getLast? with
      | some (TemplateValue.Template templated_value) =>
          if templated_value.post.isNone then
            parseGo rest (i + 1)
              (buffer.dropLast ++ [TemplateValue.Template
                { templated_value with post := some text }])
          else parseGo rest (i + 1) (buffer ++ [TemplateValue.Raw text])
      | _ => parseGo rest (i + 1) (buffer ++ [TemplateValue.Raw text])
  | Token.TemplateStart :: rest =>
      match hcf : collectFields i rest (i + 1) [] with
      | .error e => .error e
      | .ok (template_fields, rem, j') =>
          match buffer.getLast? with
          | some (TemplateValue.Raw p) =>
              parseGo rem j'
                (buffer.dropLast ++ [TemplateValue.Template ⟨some p, template_fields, none⟩])
          | _ => parseGo rem j' (buffer ++ [TemplateValue.Template ⟨none, template_fields, none⟩])
  | _ :: rest => parseGo rest (i + 1) buffer
termination_by tokens.length
decreasing_by
  all_goals simp only [List.length_cons]
  all_goals try omega
  all_goals
    have := collectFields_length i rest (i + 1) [] template_fields rem j' hcf
  all_goals omega

/-- `src/template/values.rs` `parse` on a token list. -/
def parse (tokens : List Token) : Except TemplateError (List TemplateValue) :=
  parseGo tokens 0 []

/-- `TemplateValue::try_parse`. -/
def TemplateValue.tryParse (value : String) : Except TemplateError (List TemplateValue) :=
  parse (lex value)

/-- `laika_combiner/src/template/mod.rs` `TemplateNode`. -/
inductive TemplateNode where
  | Leaf : List TemplateValue → TemplateNode
  | Branch : List (List TemplateValue × TemplateNode) → TemplateNode

/-- `laika_combiner/src/template/mod.rs` `RenderedTemplate`. -/
inductive RenderedTemplate where
  | Leaf : String → RenderedTemplate
  | Branch : List (RenderedTemplate × RenderedTemplate) → RenderedTemplate

/-- The `collect::<Result<Vec<String>, _>>()` inside `try_parse_leaf`:
render each value, propagating the first error. -/
def renderValues : List TemplateValue → Json → Except TemplateError (List String)
  | [], _ => .ok []
  | v :: rest, json => do
      let s ← v.render json
      let ss ← renderValues rest json
      .ok (s :: ss)

/-- `RenderedTemplate::try_parse_leaf`: render every value of the leaf and
join the results. -/
def RenderedTemplate.tryParseLeaf (leaf_node : List TemplateValue) (associated_value : Json) :
    Except TemplateError RenderedTemplate :=
  (renderValues leaf_node associated_value).map (fun ss => .Leaf (String.join ss))

mutual
/-- `RenderedTemplate::try_parse`. -/
def RenderedTemplate.tryParse (value : TemplateNode) (associated_value : Json) :
    Except TemplateError RenderedTemplate :=
  match value with
  | .Leaf leaf_node => RenderedTemplate.tryParseLeaf leaf_node associated_value
  | .Branch branch_node =>
      (tryParseBranch branch_node associated_value).map RenderedTemplate.Branch

/-- The per-entry traversal of `try_parse` on a branch: render the key
leaf, then the value node, collecting pairs and propagating errors. -/
def tryParseBranch (branch_node : List (List TemplateValue × TemplateNode))
    (associated_value : Json) :
    Except TemplateError (List (RenderedTemplate × RenderedTemplate)) :=
  match branch_node with
  | [] => .ok []
  | (leaf_node, template_node) :: rest => do
      let x ← RenderedTemplate.tryParseLeaf leaf_node associated_value
      let y ← RenderedTemplate.tryParse template_node associated_value
      let tail ← tryParseBranch rest associated_value
      .ok ((x, y) :: tail)
end

/-- `laika_combiner/src/template/mod.rs` `Template`. -/
structure Template where
  root : TemplateNode

/-- `Template::render`. -/
def Template.render (t : Template) (associated_value : Json) :
    Except TemplateError RenderedTemplate :=
  RenderedTemplate.tryParse t.root associated_value

mutual
/-- `serde_json::to_value` applied to a `RenderedTemplate` through its
`Serialize` implementation: a leaf is a JSON string; a branch is a JSON
object whose keys must themselves serialize as strings. -/
def renderedToJson (r : RenderedTemplate) : Except String Json :=
  match r with
  | .Leaf s => .ok (.str s)
  | .Branch entries => (renderedEntriesToJson entries).map Json.obj

/-- Entry-wise serialization of a rendered branch. -/
def renderedEntriesToJson (entries : List (RenderedTemplate × RenderedTemplate)) :
    Except String (List (String × Json)) :=
  match entries with
  | [] => .ok []
  | (k, v) :: rest =>
      match k with
      | .Leaf ks => do
          let jv ← renderedToJson v
          let tail ← renderedEntriesToJson rest
          .ok ((ks, jv) :: tail)
      | .Branch _ => .error ("key must be a string")
end

/-- `matcher/mod.rs` `MatchOn`.  A compiled `regex::Regex` is abstracted
by its `is_match` function. -/
inductive MatchOn where
  | Exactly : String → MatchOn
  | Regex : (String → Bool) → MatchOn

/-- `matcher/mod.rs` `EventMatchPattern`. -/
inductive EventMatchPattern where
  | All : EventMatchPattern
  | MatchRules : List (String × MatchOn) → EventMatchPattern

/-- `matcher/mod.rs` `EventTypeDefinition`. -/
structure EventTypeDefinition where
  source : String
  match_pattern : EventMatchPattern
  event_type : String

/-- `matcher/mod.rs` `EventTypeDefinitions`. -/
structure EventTypeDefinitions where
  type_definitions : List EventTypeDefinition

/-- `EventTypeDefinitions::match_rule`. -/
def matchRule (value : String) (match_on : MatchOn) : Bool :=
  match match_on with
  | .Exactly matched_item => value = matched_item
  | .Regex regex => regex value

/-- The `try_fold(true, |acc, x| Ok(acc && x?))` over the `(path, matcher)`
pairs of one definition in `match_message`.  Because `&&` short-circuits,
an extraction error at a pair is surfaced only while the accumulator is
still `true`; once a pair has evaluated to `false`, later errors are
swallowed and the fold returns `false`. -/
def matchRulesFold (message : Json) : List (String × MatchOn) → Bool → Except LaikaError Bool
  | [], acc => .ok acc
  | (field_path, match_rule) :: rest, acc =>
      if acc then
        match extract_json_field message field_path with
        | .error e => .error e
        | .ok value =>
            matchRulesFold message rest
              (match value.asStr with
               | some s => matchRule s match_rule
               | none => false)
      else matchRulesFold message rest false

/-- The definition-scanning loop of `EventTypeDefinitions::match_message`. -/
def matchMessageGo (event_source : String) (message : Json) :
    List EventTypeDefinition → Except LaikaError (List String)
  | [] => .ok []
  | d :: rest =>
      if d.source = event_source then
        match d.match_pattern with
        | .All => (matchMessageGo event_source message rest).map (d.event_type :: ·)
        | .MatchRules match_rules =>
            match matchRulesFold message match_rules true with
            | .error e => .error e
            | .ok b =>
                (matchMessageGo event_source message rest).map
                  (fun l => if b then d.event_type :: l else l)
      else matchMessageGo event_source message rest

/-- `matcher/mod.rs` `EventTypeDefinitions::match_message`. -/
def EventTypeDefinitions.match_message (defs : EventTypeDefinitions) (event_source : String)
    (message : Json) : Except LaikaError (List String) :=
  matchMessageGo event_source message defs.type_definitions

/-- `src/event/mod.rs` `RawEvent`. -/
structure RawEvent where
  received : Int
  data : Json

/-- `EventLike::try_extract`: extraction with errors flattened to `none`. -/
def RawEvent.tryExtract (event : RawEvent) (path : String) : Option Json :=
  (extract_json_field event.data path).toOption

/-- `config/mod.rs` `EventCorrelation`: the `event_type → json_path`
`HashMap`, as an association list. -/
structure EventCorrelation where
  event_rules : List (String × String)

/-- `config/mod.rs` `EventCorrelation::correlation_id`: no registered path
means `none` (the event becomes non-correlated); a registered path whose
extraction fails is an `EventMatchError`; otherwise the key is
`Value::to_string()` of the extracted value, i.e. its JSON serialization. -/
def EventCorrelation.correlation_id (ec : EventCorrelation) (event_type : String)
    (event : RawEvent) : Except LaikaError (Option String) :=
  match (ec.event_rules.find? (fun kv => kv.fst = event_type)).map (fun kv => kv.snd) with
  | some correlation_path =>
      match event.tryExtract correlation_path with
      | some v => .ok (some (jsonToString v))
      | none => .error .EventMatchError
  | none => .ok none

/-- `rules.rs` `Requirement`. -/
inductive Requirement where
  | AtLeast : List String → Requirement
  | Exactly : List String → Requirement

/-- `Requirement::len`. -/
def Requirement.len : Requirement → Nat
  | .AtLeast at_least => at_least.length
  | .Exactly exact => exact.length

/-- `config/builder.rs` `TimingConfig`.  Durations are whole seconds; the
source fields are `from`, `check_every`, `until` (`from`/`until` are
renamed to avoid keywords). -/
structure TimingConfig where
  fromDur : Int
  check_every : Option Int
  untilDur : Option Int

/-- The exact ceiling of `a / b` that the source computes as
`(a as f64 / b as f64).ceil() as i64` on whole-second counts. -/
def ceilDiv (a b : Int) : Int := -((-a).fdiv b)

/-- `config/builder.rs` `TimingConfig::next_check`, with `now` (the
source's `OffsetDateTime::now_utc()`) passed explicitly. -/
def TimingConfig.next_check (cfg : TimingConfig) (when_requirements_were_met : Int)
    (now : Int) : Option Int :=
  let start_time := when_requirements_were_met + cfg.fromDur
  let end_time := cfg.untilDur.map (fun d => when_requirements_were_met + d)
  if end_time.any (fun e => decide (now ≥ e)) then none
  else if now < start_time then some start_time
  else
    cfg.check_every.bind (fun interval =>
      let elapsed := now - start_time
      let intervals_passed := ceilDiv elapsed interval
      let seconds_to_add := interval * intervals_passed
      let next_time := start_time + seconds_to_add
      if end_time.any (fun e => decide (next_time ≥ e)) then none
      else some next_time)

/-- `config/builder.rs` `ActionConfig`. -/
structure ActionConfig where
  target : String
  emit_template : Template

/-- `predicate_engine.rs` `JsonPredicate`: the handle under which a
predicate source was stored. -/
structure JsonPredicate where
  id : String

/-- The predicate engine as the core sees it (spec §4.4 `PredicateEngine`
contract): evaluating a stored handle against a trigger and context yields
an optional JSON value or an error message.  The embedded JavaScript
runtime behind `predicate_engine.rs` is external to the repository and is
abstracted as a function. -/
def JsonPredicateEngine : Type :=
  JsonPredicate → Trigger → EventContext → Except String (Option Json)

/-- `rules.rs` `RuleResult`. -/
inductive RuleResult where
  | ConditionSatisfied : (met_at : Int) → (action_config : ActionConfig) →
      (condition_result : Json) → RuleResult
  | ConditionNotSatisfied : (met_at : Int) → (recheck : Option TimingConfig) → RuleResult
  | RequirementNotMet : RuleResult

/-- `rules.rs` `EventRule`. -/
structure EventRule where
  name : String
  filter_and_extract : JsonPredicate
  timing : Option TimingConfig
  requires : Option Requirement
  action : ActionConfig

/-- The context-scanning loop of `EventRule::valid_correlation`: a
NonCorrelated event preceded by at least one other event fails the check.
`count` is the number of events already seen. -/
def validCorrelationLoop : List Event → Nat → Bool
  | [], _ => true
  | event :: rest, count =>
      if (match event with | .NonCorrelated _ => true | _ => false) && count > 0 then false
      else validCorrelationLoop rest (count + 1)

/-- `rules.rs` `EventRule::valid_correlation`. -/
def EventRule.valid_correlation (rule : EventRule) (trigger : Trigger)
    (context : EventContext) : Bool :=
  let minimum_events : Nat := (rule.requires.map Requirement.len).getD 0
  if validCorrelationLoop context.sequence 0 then
    match trigger with
    | .ReceivedEvent (.NonCorrelated _) =>
        decide (context.sequence.length = 0) && decide (minimum_events ≤ 1)
    | _ => true
  else false

/-- The `(event, event_type)` candidate list of
`EventRule::when_met_requirements`: the context events in order, then the
trigger's event if the trigger is a `ReceivedEvent`. -/
def eventWithTypes (trigger : Trigger) (context : EventContext) : List (Event × String) :=
  context.sequence.map (fun e => (e, e.eventTypeStr)) ++
    (match trigger with
     | .ReceivedEvent e => [(e, e.eventTypeStr)]
     | .TimerExpired _ => [])

/-- `HashSet::insert`: add a string if absent. -/
def hsInsert (s : List String) (x : String) : List String :=
  if x ∈ s then s else s ++ [x]

/-- The `AtLeast` scanning loop of `when_met_requirements`: after each
event, if the number of distinct target types seen so far has reached
`targets.len()`, return that event's `received`. -/
def atLeastLoop (targets : List String) : List (Event × String) → List String → Option Int
  | [], _ => none
  | (event, event_type) :: rest, met_targets =>
      let met' := if targets.contains event_type then hsInsert met_targets event_type
        else met_targets
      if met'.length ≥ targets.length then some event.received
      else atLeastLoop targets rest met'

/-- `HashSet` equality of two string lists: same elements, multiplicity
and order ignored. -/
def listSetEq (a b : List String) : Bool :=
  a.all (fun x => decide (x ∈ b)) && b.all (fun x => decide (x ∈ a))

/-- `rules.rs` `EventRule::when_met_requirements`. -/
def EventRule.when_met_requirements (rule : EventRule) (trigger : Trigger)
    (context : EventContext) : Option Int :=
  let event_with_types := eventWithTypes trigger context
  match rule.requires with
  | none => event_with_types.getLast?.map (fun p => p.1.received)
  | some (.AtLeast targets) => atLeastLoop targets event_with_types []
  | some (.Exactly targets) =>
      if event_with_types.length ≠ targets.length then none
      else if listSetEq (event_with_types.map (fun p => p.2)) targets then
        event_with_types.getLast?.map (fun p => p.1.received)
      else none

/-- `rules.rs` `EventRule::meets_condition`: engine failures become
`RuleEvaluationError`. -/
def EventRule.meets_condition (rule : EventRule) (engine : JsonPredicateEngine)
    (trigger : Trigger) (context : EventContext) : Except LaikaError (Option Json) :=
  match engine rule.filter_and_extract trigger context with
  | .ok r => .ok r
  | .error e => .error (.RuleEvaluationError e)

/-- `rules.rs` `EventRule::evaluate`. -/
def EventRule.evaluate (rule : EventRule) (engine : JsonPredicateEngine)
    (trigger : Trigger) (context : EventContext) : Except LaikaError RuleResult :=
  if rule.valid_correlation trigger context then
    match rule.when_met_requirements trigger context with
    | some met_at =>
        match rule.meets_condition engine trigger context with
        | .error e => .error e
        | .ok (some condition_result) =>
            .ok (.ConditionSatisfied met_at rule.action condition_result)
        | .ok none => .ok (.ConditionNotSatisfied met_at rule.timing)
    | none => .ok .RequirementNotMet
  else .error .InvalidEventGroup

/-- `action.rs` `EmitAction`. -/
structure EmitAction where
  target : String
  payload : Json

/-- `action.rs` `EventAction`. -/
inductive EventAction where
  | Emit : EmitAction → EventAction
  | ScheduleWakeup : EventExpiry → EventAction

/-- The `Display` rendering of `TemplateError` (`template/error.rs`). -/
def templateErrorToString : TemplateError → String
  | .NoMappingFound => "Mapping Expected, but not found"
  | .KeyExpected => "String expected in key slot, but no string found"
  | .IncorrectMatchLength a b =>
      "Expected to find " ++ toString a ++ " matches, actually found " ++ toString b
  | .NoTokensFound => "No Tokens were found in parse"
  | .TooManyTokensFound => "Expected at most 3 tokens"
  | .InvalidTokenArrangement => "Tokens in an unexpected format - i.e. Prefix Prefix Token"
  | .UnexpectedToken p => "Unexpected token at position " ++ toString p
  | .UnclosedTemplate p =>
      "Template not closed properly - expected a \x7d\x7d at position " ++ toString p
  | .RenderError s => "Could not render template from JSON due to " ++ s

/-- `event_processor/processor.rs` `EventProcessor`.  The matcher and the
correlation table take part only in `parse_event`; rule evaluation uses
the engine and the rules. -/
structure EventProcessor where
  engine : JsonPredicateEngine
  event_matcher : EventTypeDefinitions
  event_correlation : EventCorrelation
  rules : List EventRule

/-- `EventProcessor::emit_action`: render the action template against the
predicate output and wrap it as an `Emit` action; template failures become
`LaikaError::TemplateError` (via `From`, then the serialization step). -/
def emit_action (action_config : ActionConfig) (output : Json) : Except LaikaError EventAction :=
  match action_config.emit_template.render output with
  | .error e => .error (.TemplateError (templateErrorToString e))
  | .ok rendered =>
      match renderedToJson rendered with
      | .error e => .error (.TemplateError e)
      | .ok payload => .ok (.Emit ⟨action_config.target, payload⟩)

/-- The rule loop of `EventProcessor::relevant_actions`: actions collect
in rule declaration order.  `now` is the clock that
`TimingConfig::next_check` reads. -/
def relevantActionsGo (engine : JsonPredicateEngine) (now : Int)
    (correlation_id : Option String) (trigger : Trigger) (context : EventContext) :
    List EventRule → Except LaikaError (List EventAction)
  | [] => .ok []
  | rule :: rest =>
      match rule.evaluate engine trigger context with
      | .error e => .error e
      | .ok (.ConditionSatisfied _met_at action_config condition_result) =>
          match emit_action action_config condition_result with
          | .error e => .error e
          | .ok a =>
              (relevantActionsGo engine now correlation_id trigger context rest).map
                (fun acts => a :: acts)
      | .ok (.ConditionNotSatisfied met_at recheck) =>
          match recheck with
          | none => relevantActionsGo engine now correlation_id trigger context rest
          | some recheck_config =>
              match correlation_id with
              | none => relevantActionsGo engine now correlation_id trigger context rest
              | some cid =>
                  match recheck_config.next_check met_at now with
                  | some next_wakeup =>
                      (relevantActionsGo engine now correlation_id trigger context rest).map
                        (fun acts => EventAction.ScheduleWakeup ⟨next_wakeup, cid, rule.name⟩ :: acts)
                  | none => relevantActionsGo engine now correlation_id trigger context rest
      | .ok .RequirementNotMet => relevantActionsGo engine now correlation_id trigger context rest

/-- `event_processor/processor.rs` `EventProcessor::relevant_actions`. -/
def EventProcessor.relevant_actions (p : EventProcessor) (now : Int)
    (correlation_id : Option String) (trigger : Trigger) (context : EventContext) :
    Except LaikaError (List EventAction) :=
  relevantActionsGo p.engine now correlation_id trigger context p.rules

/-- The processor loop of `handle_timing_expiry`: every processor's
`relevant_actions` extends `event_actions`, in processor order. -/
def collectExpiryActions (now : Int) (correlation_id : Option String) (trigger : Trigger)
    (context : EventContext) : List EventProcessor → Except LaikaError (List EventAction)
  | [] => .ok []
  | p :: rest =>
      match p.relevant_actions now correlation_id trigger context with
      | .error e => .error e
      | .ok acts =>
          (collectExpiryActions now correlation_id trigger context rest).map
            (fun tail => acts ++ tail)

/-- `src/event_handler.rs` `handle_timing_expiry`.  The stored events under
`correlation_id` (the `read_events` of `storage.rs`, absent key meaning the
empty list) are abstracted as the function `storage`.  The source collects
every processor's actions into `event_actions` — whose errors therefore
propagate — but returns the `actions` vector declared at the top, which is
never extended. -/
def handle_timing_expiry (rule_groups : List EventProcessor)
    (storage : String → List CorrelatedEvent) (correlation_id : String)
    (event_expiry : EventExpiry) (now : Int) : Except LaikaError (List EventAction) :=
  let actions : List EventAction := []
  match EventContext.tryFrom ((storage correlation_id).map Event.Correlated) with
  | .error e => .error e
  | .ok context =>
      match collectExpiryActions now (some correlation_id) (Trigger.TimerExpired event_expiry)
          context rule_groups with
      | .error e => .error e
      | .ok _event_actions => .ok actions

/-- `timing.rs` `TimingExpiry`: the cached head (`expiry`) plus the
contents of the persistence file, modelled as the list it encodes
(`read_expiries` of an absent or empty file yields the empty list; I/O and
locking are assumed to succeed). -/
structure TimingExpiryState where
  expiry : Option EventExpiry
  file : List EventExpiry

/-- `TimingExpiry::new` over an absent file. -/
def TimingExpiryState.empty : TimingExpiryState := ⟨none, []⟩

/-- `TimingExpiry::peek`. -/
def TimingExpiryState.peek (s : TimingExpiryState) : Option EventExpiry := s.expiry

/-- `TimingExpiry::update_expiry`: sort (stably, by the derived
lexicographic order), persist, and cache the first element as the head. -/
def TimingExpiryState.update_expiry (_s : TimingExpiryState)
    (expiries : List EventExpiry) : TimingExpiryState :=
  let sorted := expiries.mergeSort expiryLe
  ⟨sorted.head?, sorted⟩

/-- `TimingExpiry::add_expiry`: read the file, push, re-sort and persist. -/
def TimingExpiryState.add_expiry (s : TimingExpiryState) (e : EventExpiry) :
    TimingExpiryState :=
  s.update_expiry (s.file ++ [e])

/-- `TimingExpiry::ack` with the clock passed explicitly.  A missing or
not-yet-due head is an error leaving the state unchanged; otherwise
`remove_expiry` retains every file entry different from the head (all
copies equal to it are removed) and the state is re-persisted. -/
def TimingExpiryState.ack (s : TimingExpiryState) (now : Int) :
    Except LaikaError Unit × TimingExpiryState :=
  match s.expiry with
  | none => (.error (.Generic ("No expiry to acknowledge")), s)
  | some expiry =>
      if expiry.expires_at > now then (.error (.Generic ("Expiry not yet met")), s)
      else (.ok (), s.update_expiry (s.file.filter (fun exp => exp ≠ expiry)))

/-- `TimingExpiry::nack`: drop every expiry with the given correlation ID;
an error if none matched. -/
def TimingExpiryState.nack (s : TimingExpiryState) (correlation_id : String) :
    Except LaikaError Unit × TimingExpiryState :=
  let expiries := s.file.filter (fun exp => exp.correlation_id ≠ correlation_id)
  if expiries.length = s.file.length then
    (.error (.Generic ("No expiry found for correlation ID: " ++ correlation_id)), s)
  else (.ok (), s.update_expiry expiries)

/-- One queue operation of the sequences quantified over by the expiry
queue claim. -/
inductive QueueOp where
  | add : EventExpiry → QueueOp
  | ack : Int → QueueOp
  | nack : String → QueueOp

/-- Apply one operation to the queue state (errors leave the state as the
source leaves it). -/
def applyOp (s : TimingExpiryState) : QueueOp → TimingExpiryState
  | .add e => s.add_expiry e
  | .ack now => (s.ack now).2
  | .nack cid => (s.nack cid).2

/-- Replay a sequence of operations from the empty queue. -/
def runOps (ops : List QueueOp) : TimingExpiryState :=
  ops.foldl applyOp TimingExpiryState.empty

/-- The minimum of a list of expiries by `expires_at` alone, as the claim
reads (`Modelled from the spec:` the "minimum by `expires_at` of the
conceptual set" of §4.8/§8; earlier elements win ties). -/
def minByExpiresAt : List EventExpiry → Option EventExpiry
  | [] => none
  | e :: rest =>
      match minByExpiresAt rest with
      | none => some e
      | some m => if m.expires_at < e.expires_at then some m else some e

/-- The conceptual outstanding multiset exactly as the claim describes it
(`Modelled from the spec:` §4.8's conceptual set in which "each successful
ack conceptually removes exactly one expiry, the head"): `add` appends,
a successful `ack` removes one copy of the minimum by `expires_at`,
`nack` removes every expiry with the key (failing if none). -/
def applyClaimOp (l : List EventExpiry) : QueueOp → List EventExpiry
  | .add e => l ++ [e]
  | .ack now =>
      match minByExpiresAt l with
      | none => l
      | some m => if m.expires_at > now then l else l.erase m
  | .nack cid =>
      let rem := l.filter (fun e => e.correlation_id ≠ cid)
      if rem.length = l.length then l else rem

/-- The claim's conceptual outstanding list after a sequence of
operations. -/
def claimOutstanding (ops : List QueueOp) : List EventExpiry :=
  ops.foldl applyClaimOp []

/-- The minimum element of the outstanding list under the full derived
order of `EventExpiry` (the element the sorted file starts with). -/
def lexMin : List EventExpiry → Option EventExpiry
  | [] => none
  | e :: rest =>
      match lexMin rest with
      | none => some e
      | some m => if expiryLe e m then some e else some m

/-- The amended conceptual replay: as the claim's, except that a
successful ack removes every copy equal to the head (the lexicographic
minimum), which is what `remove_expiry`'s `retain` does. -/
def applyAmendedOp (l : List EventExpiry) : QueueOp → List EventExpiry
  | .add e => l ++ [e]
  | .ack now =>
      match lexMin l with
      | none => l
      | some m => if m.expires_at > now then l else l.filter (fun e => e ≠ m)
  | .nack cid =>
      let rem := l.filter (fun e => e.correlation_id ≠ cid)
      if rem.length = l.length then l else rem

/-- The amended conceptual outstanding list. -/
def amendedOutstanding (ops : List QueueOp) : List EventExpiry :=
  ops.foldl applyAmendedOp []

/-- The exact integer ceiling: for a positive divisor, `ceilDiv` is the
ceiling of the rational quotient, i.e. the `k` of the claim's
`k = ceil((now - start) / check_every)`. -/
theorem ceilDiv_eq_rat_ceil (a b : Int) (hb : 0 < b) :
    ceilDiv a b = ⌈(a : ℚ) / (b : ℚ)⌉ := by
  unfold ceilDiv
  obtain ⟨n, rfl⟩ := Int.eq_ofNat_of_zero_le hb.le
  rw [Int.fdiv_eq_ediv _ (by exact_mod_cast Nat.zero_le n)]
  have h1 : ((-a : Int) / (n : Int)) = ⌊((-a : Int) : ℚ) / ((n : ℕ) : ℚ)⌋ := by
    rw [Rat.floor_intCast_div_natCast]
  rw [h1]
  have h2 : ((-a : Int) : ℚ) = -((a : Int) : ℚ) := by push_cast; ring
  rw [h2, neg_div, Int.floor_neg]
  simp

/-- The next-check computation exactly as claim C7 words it (a second
definition following the claim, to be compared with the embedded
`TimingConfig.next_check`): none when `until` is set and `now ≥ m + until`;
otherwise `m + from` when `now < m + from`; otherwise, with `check_every`
set, `m + from + k·check_every` for `k = ⌈(now - (m + from)) / check_every⌉`
unless `until` is set and that candidate reaches `m + until`; none when
`check_every` is unset. -/
def claimNextCheck (cfg : TimingConfig) (m now : Int) : Option Int :=
  if cfg.untilDur.any (fun u => decide (now ≥ m + u)) then none
  else if now < m + cfg.fromDur then some (m + cfg.fromDur)
  else
    match cfg.check_every with
    | none => none
    | some check_every =>
        let k : Int := ⌈((now - (m + cfg.fromDur) : Int) : ℚ) / ((check_every : Int) : ℚ)⌉
        let candidate := m + cfg.fromDur + k * check_every
        if cfg.untilDur.any (fun u => decide (candidate ≥ m + u)) then none
        else some candidate

/-- C7: for every timing configuration with a positive `check_every` (when
set), every `met_at` and every current time, `TimingConfig::next_check`
computes exactly what the claim describes. -/
theorem next_check_matches_claim (cfg : TimingConfig) (m now : Int)
    (hce : ∀ ce ∈ cfg.check_every, 0 < ce) :
    cfg.next_check m now = claimNextCheck cfg m now := by
  unfold TimingConfig.next_check claimNextCheck
  cases hc : cfg.check_every with
  | none => cases hu : cfg.untilDur <;> simp [hu]
  | some ce =>
      have hpos : 0 < ce := hce ce (by simp [hc])
      have hk : ceilDiv (now - (m + cfg.fromDur)) ce
          = ⌈((now - (m + cfg.fromDur) : Int) : ℚ) / ((ce : Int) : ℚ)⌉ :=
        ceilDiv_eq_rat_ceil _ _ hpos
      cases hu : cfg.untilDur <;> simp [hu, hk, mul_comm]

/-- Witness for C7 at a concrete configuration: `from = 10 s`,
`check_every = 10 s`, `until = 60 s`, requirements met at 0, clock at 25:
the next check is at 30, on both sides of the theorem. -/
theorem next_check_matches_claim_witness :
    (∀ ce ∈ (some 10 : Option Int), (0 : Int) < ce)
      ∧ (⟨10, some 10, some 60⟩ : TimingConfig).next_check 0 25
          = claimNextCheck ⟨10, some 10, some 60⟩ 0 25
      ∧ (⟨10, some 10, some 60⟩ : TimingConfig).next_check 0 25 = some 30 :=
  ⟨by decide, next_check_matches_claim ⟨10, some 10, some 60⟩ 0 25 (by decide), by rfl⟩

/-- C10: for every event type with a registered correlation path and every
raw event whose payload yields a value at that path, the correlation key is
the JSON serialization (`Value::to_string()`) of the extracted value. -/
theorem correlation_id_serializes_extracted_value
    (ec : EventCorrelation) (event_type : String) (event : RawEvent)
    (path : String) (v : Json)
    (hpath : (ec.event_rules.find? (fun kv => kv.fst = event_type)).map (fun kv => kv.snd)
      = some path)
    (hv : extract_json_field event.data path = .ok v) :
    ec.correlation_id event_type event = .ok (some (jsonToString v)) := by
  unfold EventCorrelation.correlation_id
  rw [hpath]
  simp [RawEvent.tryExtract, hv, Except.toOption]

/-- Witness for C10: type `A` keyed by `$.id`, payload `{"id": "abc"}`:
the key is the quoted serialization `"abc"` including the double quotes,
not the bare string contents. -/
theorem correlation_id_serializes_extracted_value_witness :
    (⟨[("A", "$.id")]⟩ : EventCorrelation).correlation_id "A"
        ⟨0, .obj [("id", .str "abc")]⟩
      = .ok (some "\"abc\"") := by
  have h := correlation_id_serializes_extracted_value ⟨[("A", "$.id")]⟩ "A"
    ⟨0, .obj [("id", .str "abc")]⟩ "$.id" (.str "abc") (by rfl) (by rfl)
  simpa using h

/-- A trivial action template rendering the literal `hi`. -/
def stubTemplate : Template := ⟨TemplateNode.Leaf [TemplateValue.Raw "hi"]⟩

/-- A concrete action configuration targeting connection `out`. -/
def stubAction : ActionConfig := ⟨"out", stubTemplate⟩

/-- A predicate engine stub whose every predicate returns a non-null
value (`null` the JSON value, not a null return). -/
def stubEngine : JsonPredicateEngine := fun _ _ _ => .ok (some .null)

/-- A rule with no requirement and the always-satisfied predicate stub. -/
def stubRule : EventRule := ⟨"r1", ⟨"pred_1"⟩, none, none, stubAction⟩

/-- A processor owning exactly `stubRule`. -/
def stubProcessor : EventProcessor := ⟨stubEngine, ⟨[]⟩, ⟨[]⟩, [stubRule]⟩

/-- A store holding one correlated event of type `A` under every key. -/
def stubStorage : String → List CorrelatedEvent := fun _ => [⟨5, "k", "A", .null⟩]

unseal List.mergeSort in
/-- C1: `handle_timing_expiry` always returns the empty `actions` vector it
declared at the top, even though the rules — evaluated over exactly the
context the claim describes — produced an `Emit` action (collected into the
discarded `event_actions`).  At this input the claim requires a non-empty
result. -/
theorem handle_timing_expiry_returns_empty :
    handle_timing_expiry [stubProcessor] stubStorage "k" ⟨9, "k", "r1"⟩ 10 = .ok []
    ∧ ∃ ctx, EventContext.tryFrom ((stubStorage "k").map Event.Correlated) = .ok ctx
        ∧ collectExpiryActions 10 (some "k") (.TimerExpired ⟨9, "k", "r1"⟩) ctx [stubProcessor]
            = .ok [.Emit ⟨"out", .str "hi"⟩] :=
  ⟨rfl, ⟨⟨[.Correlated ⟨5, "k", "A", .null⟩], [("A", [.Correlated ⟨5, "k", "A", .null⟩])]⟩,
    rfl, rfl⟩⟩

/-- A rule requiring exactly the two event types `A` and `B`. -/
def exactlyABRule : EventRule := ⟨"r2", ⟨"pred_1"⟩, none, some (.Exactly ["A", "B"]), stubAction⟩

unseal List.mergeSort in
/-- C2: a candidate list in which a NonCorrelated event (first in the
context) co-exists with the Correlated trigger event is accepted by
`EventRule::evaluate` — the rule even fires — although the claim (and the
source's own comment `NonCorrelated events must be alone`) requires the
evaluation to reject it with `InvalidEventGroup`.  The aloneness loop only
detects a NonCorrelated event preceded by another event and ignores the
trigger's event entirely. -/
theorem evaluate_accepts_noncorrelated_beside_trigger :
    ∃ ctx, EventContext.tryFrom [Event.NonCorrelated ⟨0, "id1", "A", .null⟩] = .ok ctx
      ∧ exactlyABRule.valid_correlation
          (.ReceivedEvent (.Correlated ⟨1, "k", "B", .null⟩)) ctx = true
      ∧ exactlyABRule.evaluate stubEngine
          (.ReceivedEvent (.Correlated ⟨1, "k", "B", .null⟩)) ctx
          = .ok (.ConditionSatisfied 1 stubAction .null)
      ∧ (eventWithTypes (.ReceivedEvent (.Correlated ⟨1, "k", "B", .null⟩)) ctx).length = 2
      ∧ ctx.sequence.any
          (fun e => match e with | .NonCorrelated _ => true | _ => false) = true :=
  ⟨⟨[.NonCorrelated ⟨0, "id1", "A", .null⟩], [("A", [.NonCorrelated ⟨0, "id1", "A", .null⟩])]⟩,
    rfl, rfl, rfl, rfl, rfl⟩

unseal List.mergeSort List.merge in
/-- Counterexample to C4: a vector holding a NonCorrelated event together
with a Correlated one is accepted by `EventContext::try_from` — the claim
says construction must fail on such input. -/
theorem tryFrom_accepts_mixed_vector :
    EventContext.tryFrom
        [Event.NonCorrelated ⟨0, "id1", "A", .null⟩, Event.Correlated ⟨1, "k", "B", .null⟩]
      = .ok ⟨[.NonCorrelated ⟨0, "id1", "A", .null⟩, .Correlated ⟨1, "k", "B", .null⟩],
          [("A", [.NonCorrelated ⟨0, "id1", "A", .null⟩]),
           ("B", [.Correlated ⟨1, "k", "B", .null⟩])]⟩ := rfl

/-- `buildEventsIndex` can never fail: every event carries a type. -/
theorem buildEventsIndex_ok (events : List Event) :
    ∀ m, ∃ r, buildEventsIndex events m = .ok r := by
  induction events with
  | nil => intro m; exact ⟨m, rfl⟩
  | cons e rest ih =>
      intro m
      cases e with
      | Correlated ce => simpa [buildEventsIndex, Event.eventType?] using ih _
      | NonCorrelated ne => simpa [buildEventsIndex, Event.eventType?] using ih _

/-- `eventLe` is transitive. -/
theorem eventLe_trans (a b c : Event) : eventLe a b → eventLe b c → eventLe a c := by
  simp only [eventLe, decide_eq_true_eq]
  omega

/-- `eventLe` is total. -/
theorem eventLe_total (a b : Event) : eventLe a b || eventLe b a := by
  simp only [eventLe, Bool.or_eq_true, decide_eq_true_eq]
  omega

/-- Amended C4: construction always succeeds; the resulting sequence is a
permutation of the input ordered non-decreasing by `received`.  (The claim's
rejection of NonCorrelated events mixed with others does not happen here;
that check lives in `EventRule::valid_correlation`.) -/
theorem tryFrom_sorts_and_never_rejects (l : List Event) :
    ∃ ctx, EventContext.tryFrom l = .ok ctx
      ∧ ctx.sequence.Pairwise (fun a b => a.received ≤ b.received)
      ∧ ctx.sequence.Perm l := by
  obtain ⟨r, hr⟩ := buildEventsIndex_ok (l.mergeSort eventLe) []
  refine ⟨⟨l.mergeSort eventLe, r⟩, ?_, ?_, List.mergeSort_perm l eventLe⟩
  · simp [EventContext.tryFrom, hr, Except.map]
  · have h := @List.sorted_mergeSort Event eventLe
      (fun a b c => eventLe_trans a b c) (fun a b => eventLe_total a b) l
    refine h.imp ?_
    intro a b hab
    simpa [eventLe] using hab

unseal List.mergeSort List.merge in
/-- Counterexample to C5: requirement `Exactly [A, B]`, a context event of
type `A` received at 5, and a trigger event of type `B` received at 0.
The requirement is met, but `met_at` is 0 — the received time of the
*last* candidate (the trigger's event) — while the latest candidate's
received time is 5. -/
theorem exactly_met_at_not_latest :
    ∃ ctx, EventContext.tryFrom [Event.Correlated ⟨5, "k", "A", .null⟩] = .ok ctx
      ∧ exactlyABRule.when_met_requirements
          (.ReceivedEvent (.Correlated ⟨0, "k", "B", .null⟩)) ctx = some 0
      ∧ ((eventWithTypes (.ReceivedEvent (.Correlated ⟨0, "k", "B", .null⟩)) ctx).map
          (fun p => p.1.received)).maximum? = some 5 :=
  ⟨⟨[.Correlated ⟨5, "k", "A", .null⟩], [("A", [.Correlated ⟨5, "k", "A", .null⟩])]⟩,
    rfl, rfl, rfl⟩

/-- `HashSet` equality of string lists is mutual inclusion. -/
theorem listSetEq_iff (a b : List String) : listSetEq a b = true ↔ (a ⊆ b ∧ b ⊆ a) := by
  simp [listSetEq, List.all_eq_true, List.subset_def]

/-- Amended C5: for a rule requiring `Exactly(targets)`, `met_at` is
defined iff the candidate count equals the length of the targets list and
the candidate types and the targets contain each other as sets; it then
equals the received time of the *last* candidate (the trigger's event when
the trigger is a `ReceivedEvent`, the final context event otherwise) —
which is the latest only when that last candidate is the most recent. -/
theorem exactly_met_at_characterization (rule : EventRule) (targets : List String)
    (trigger : Trigger) (context : EventContext)
    (h : rule.requires = some (.Exactly targets)) :
    rule.when_met_requirements trigger context =
      if (eventWithTypes trigger context).length = targets.length
          ∧ (eventWithTypes trigger context).map (fun p => p.2) ⊆ targets
          ∧ targets ⊆ (eventWithTypes trigger context).map (fun p => p.2)
      then (eventWithTypes trigger context).getLast?.map (fun p => p.1.received)
      else none := by
  simp only [EventRule.when_met_requirements, h]
  by_cases hlen : (eventWithTypes trigger context).length = targets.length
  · by_cases hset : ((eventWithTypes trigger context).map (fun p => p.2)) ⊆ targets
        ∧ targets ⊆ (eventWithTypes trigger context).map (fun p => p.2)
    · have hb : listSetEq ((eventWithTypes trigger context).map (fun p => p.2)) targets
          = true := (listSetEq_iff _ _).2 hset
      simp [hlen, hb, hset]
    · have hb : listSetEq ((eventWithTypes trigger context).map (fun p => p.2)) targets
          ≠ true := fun hc => hset ((listSetEq_iff _ _).1 hc)
      simp only [Bool.not_eq_true] at hb
      simp [hlen, hb, hset]
  · simp [hlen]

unseal List.mergeSort List.merge in
/-- Witness for C5's amended characterization: `Exactly [A, B]` with an
`A` at 1 in context and a `B` at 2 as trigger is met at 2, on both sides
of the theorem. -/
theorem exactly_met_at_characterization_witness :
    exactlyABRule.requires = some (.Exactly ["A", "B"])
    ∧ exactlyABRule.when_met_requirements
        (.ReceivedEvent (.Correlated ⟨2, "k", "B", .null⟩))
        ⟨[.Correlated ⟨1, "k", "A", .null⟩], [("A", [.Correlated ⟨1, "k", "A", .null⟩])]⟩
        = some 2 :=
  ⟨rfl, by
    rw [exactly_met_at_characterization exactlyABRule ["A", "B"] _ _ rfl]
    decide⟩

/-- The `AtLeast` scan exactly as claim C6 words it (a second definition
following the claim, compared against the embedded loop): scanning the
candidates in order, `met_at` is the received time of the first candidate
at which every target type has been seen at least once. -/
def claimAtLeastGo (targets : List String) : List (Event × String) → List String → Option Int
  | [], _ => none
  | (e, t) :: rest, seen =>
      if ∀ tg ∈ targets, tg ∈ t :: seen then some e.received
      else claimAtLeastGo targets rest (t :: seen)

/-- The claim-side `met_at` for `AtLeast(targets)` over a candidate list. -/
def claimAtLeastMet (targets : List String) (cands : List (Event × String)) : Option Int :=
  claimAtLeastGo targets cands []

/-- A rule whose `AtLeast` targets list holds a duplicate. -/
def atLeastAARule : EventRule := ⟨"r6", ⟨"pred_1"⟩, none, some (.AtLeast ["A", "A"]), stubAction⟩

unseal List.mergeSort List.merge in
/-- Counterexample to C6: with the duplicated targets list `[A, A]` and a
single candidate of type `A` received at 7, every target type has been
seen at the first candidate — the claim's scan yields 7 — but the code
counts distinct seen target types against the *length* of the targets
list and never reaches 2, so `met_at` is undefined. -/
theorem atLeast_duplicate_targets_never_met :
    ∃ ctx, EventContext.tryFrom [Event.Correlated ⟨7, "k", "A", .null⟩] = .ok ctx
      ∧ atLeastAARule.when_met_requirements (.TimerExpired ⟨0, "x", "y"⟩) ctx = none
      ∧ claimAtLeastMet ["A", "A"]
          (eventWithTypes (.TimerExpired ⟨0, "x", "y"⟩) ctx) = some 7 :=
  ⟨⟨[.Correlated ⟨7, "k", "A", .null⟩], [("A", [.Correlated ⟨7, "k", "A", .null⟩])]⟩,
    rfl, rfl, by decide⟩

/-- Membership in a `HashSet` insertion. -/
theorem hsInsert_mem (s : List String) (x y : String) :
    y ∈ hsInsert s x ↔ (y ∈ s ∨ y = x) := by
  unfold hsInsert
  split
  · constructor
    · exact fun h => Or.inl h
    · rintro (h | rfl) <;> assumption
  · simp

/-- `HashSet` insertion preserves distinctness. -/
theorem hsInsert_nodup (s : List String) (x : String) (h : s.Nodup) :
    (hsInsert s x).Nodup := by
  unfold hsInsert
  split
  · exact h
  · simp_all [List.nodup_append]

/-- The loop-level equivalence behind amended C6: for a duplicate-free
targets list, the embedded counting loop agrees with the claim's scan,
given the invariant that the code's `met_targets` set is exactly the set
of targets already seen. -/
theorem atLeastLoop_eq_claim (targets : List String) (hnd : targets.Nodup) :
    ∀ (cands : List (Event × String)) (met seen : List String),
      met.Nodup → (∀ x, x ∈ met ↔ (x ∈ targets ∧ x ∈ seen)) →
      atLeastLoop targets cands met = claimAtLeastGo targets cands seen := by
  intro cands
  induction cands with
  | nil => intro met seen _ _; rfl
  | cons p rest ih =>
      obtain ⟨e, t⟩ := p
      intro met seen hmnd hinv
      by_cases ht : t ∈ targets
      · -- the candidate's type is a target: it is inserted
        have hmet' : ∀ x, x ∈ hsInsert met t ↔ (x ∈ targets ∧ x ∈ t :: seen) := by
          intro x
          rw [hsInsert_mem]
          constructor
          · rintro (hx | rfl)
            · obtain ⟨h1, h2⟩ := (hinv x).1 hx
              exact ⟨h1, List.mem_cons_of_mem _ h2⟩
            · exact ⟨ht, List.mem_cons_self _ _⟩
          · rintro ⟨h1, h2⟩
            rcases List.mem_cons.1 h2 with rfl | h2
            · exact Or.inr rfl
            · exact Or.inl ((hinv x).2 ⟨h1, h2⟩)
        have hmet'nd : (hsInsert met t).Nodup := hsInsert_nodup _ _ hmnd
        have hsub : hsInsert met t ⊆ targets := fun x hx => ((hmet' x).1 hx).1
        have hcond : (targets.length ≤ (hsInsert met t).length)
            ↔ (∀ tg ∈ targets, tg ∈ t :: seen) := by
          constructor
          · intro hc tg htg
            have hfsub : (hsInsert met t).toFinset ⊆ targets.toFinset := by
              intro x hx
              exact List.mem_toFinset.2 (hsub (List.mem_toFinset.1 hx))
            have hcard : targets.toFinset.card ≤ (hsInsert met t).toFinset.card := by
              rw [List.toFinset_card_of_nodup hmet'nd, List.toFinset_card_of_nodup hnd]
              exact hc
            have : (hsInsert met t).toFinset = targets.toFinset :=
              Finset.eq_of_subset_of_card_le hfsub hcard
            have : tg ∈ hsInsert met t := by
              rw [← List.mem_toFinset, this, List.mem_toFinset]
              exact htg
            exact ((hmet' tg).1 this).2
          · intro hc
            have hsub2 : targets ⊆ hsInsert met t := fun tg htg =>
              (hmet' tg).2 ⟨htg, hc tg htg⟩
            have hfsub : targets.toFinset ⊆ (hsInsert met t).toFinset := by
              intro x hx
              exact List.mem_toFinset.2 (hsub2 (List.mem_toFinset.1 hx))
            have := Finset.card_le_card hfsub
            rwa [List.toFinset_card_of_nodup hmet'nd, List.toFinset_card_of_nodup hnd] at this
        have hct : targets.contains t = true := by
          simpa using ht
        simp only [atLeastLoop, claimAtLeastGo, ge_iff_le, hct, if_true]
        by_cases hc : targets.length ≤ (hsInsert met t).length
        · rw [if_pos hc, if_pos (hcond.1 hc)]
        · rw [if_neg hc, if_neg (fun hall => hc (hcond.2 hall))]
          exact ih _ _ hmet'nd hmet'
      · -- not a target: the set is unchanged
        have hmet' : ∀ x, x ∈ met ↔ (x ∈ targets ∧ x ∈ t :: seen) := by
          intro x
          rw [hinv x]
          constructor
          · rintro ⟨h1, h2⟩
            exact ⟨h1, List.mem_cons_of_mem _ h2⟩
          · rintro ⟨h1, h2⟩
            rcases List.mem_cons.1 h2 with rfl | h2
            · exact absurd h1 ht
            · exact ⟨h1, h2⟩
        have hsub : met ⊆ targets := fun x hx => ((hinv x).1 hx).1
        have hcond : (targets.length ≤ met.length) ↔ (∀ tg ∈ targets, tg ∈ t :: seen) := by
          constructor
          · intro hc tg htg
            have hfsub : met.toFinset ⊆ targets.toFinset := by
              intro x hx
              exact List.mem_toFinset.2 (hsub (List.mem_toFinset.1 hx))
            have hcard : targets.toFinset.card ≤ met.toFinset.card := by
              rw [List.toFinset_card_of_nodup hmnd, List.toFinset_card_of_nodup hnd]
              exact hc
            have heq : met.toFinset = targets.toFinset :=
              Finset.eq_of_subset_of_card_le hfsub hcard
            have : tg ∈ met := by
              rw [← List.mem_toFinset, heq, List.mem_toFinset]
              exact htg
            exact ((hmet' tg).1 this).2
          · intro hc
            have hsub2 : targets ⊆ met := fun tg htg => (hmet' tg).2 ⟨htg, hc tg htg⟩
            have hfsub : targets.toFinset ⊆ met.toFinset := by
              intro x hx
              exact List.mem_toFinset.2 (hsub2 (List.mem_toFinset.1 hx))
            have := Finset.card_le_card hfsub
            rwa [List.toFinset_card_of_nodup hmnd, List.toFinset_card_of_nodup hnd] at this
        have hct : targets.contains t = false := by
          simp only [List.contains_eq_any_beq]
          simp only [List.any_eq_false, beq_iff_eq]
          intro x hx hEq
          exact ht (hEq ▸ hx)
        simp only [atLeastLoop, claimAtLeastGo, ge_iff_le, hct, Bool.false_eq_true, if_false]
        by_cases hc : targets.length ≤ met.length
        · rw [if_pos hc, if_pos (hcond.1 hc)]
        · rw [if_neg hc, if_neg (fun hall => hc (hcond.2 hall))]
          exact ih _ _ hmnd hmet'

/-- Amended C6: for a rule requiring `AtLeast(targets)` with a
duplicate-free targets list, `met_at` is exactly what the claim describes —
the received time of the first candidate (context events in order, then
the trigger's event) at which every target type has been seen, undefined
when the candidates never cover all target types.  (For duplicated targets
the code requires as many distinct target types as the list is long, which
can never be met.) -/
theorem atLeast_met_at_characterization (rule : EventRule) (targets : List String)
    (trigger : Trigger) (context : EventContext)
    (h : rule.requires = some (.AtLeast targets)) (hnd : targets.Nodup) :
    rule.when_met_requirements trigger context
      = claimAtLeastMet targets (eventWithTypes trigger context) := by
  simp only [EventRule.when_met_requirements, h, claimAtLeastMet]
  exact atLeastLoop_eq_claim targets hnd _ [] [] List.nodup_nil (by simp)

unseal List.mergeSort List.merge in
/-- Witness for C6's amended characterization: `AtLeast [A, B]` with an
`A` at 1 in context and a `B` at 2 as trigger is met at 2, on both sides
of the theorem. -/
theorem atLeast_met_at_characterization_witness :
    (["A", "B"] : List String).Nodup
    ∧ (⟨"r6b", ⟨"pred_1"⟩, none, some (.AtLeast ["A", "B"]), stubAction⟩ :
        EventRule).when_met_requirements
        (.ReceivedEvent (.Correlated ⟨2, "k", "B", .null⟩))
        ⟨[.Correlated ⟨1, "k", "A", .null⟩], [("A", [.Correlated ⟨1, "k", "A", .null⟩])]⟩
        = some 2 :=
  ⟨by decide, by
    rw [atLeast_met_at_characterization _ ["A", "B"] _ _ rfl (by decide)]
    decide⟩

/-- A definition set on source `s`: type `T` requires field `a` to equal
`x`. -/
def c3Defs : EventTypeDefinitions := ⟨[⟨"s", .MatchRules [("a", .Exactly "x")], "T"⟩]⟩

/-- Counterexample to C3: a message without the matched path makes the
whole classification fail with `FieldNotFound` — it does not simply leave
that definition unmatched as the claim states. -/
theorem match_message_fails_on_absent_path :
    c3Defs.match_message "s" (.obj []) = .error (.FieldNotFound "a" "a") := rfl

/-- One `(path, matcher)` pair evaluated the way the claim describes a
match: the value at the path exists, is a string, and satisfies the
matcher. -/
def pairOk (message : Json) (pr : String × MatchOn) : Bool :=
  match extract_json_field message pr.1 with
  | .ok v =>
      (match v.asStr with
       | some s => matchRule s pr.2
       | none => false)
  | .error _ => false

/-- A definition matches when its pattern is `All`, or when every pair of
its `MatchRules` passes `pairOk`. -/
def defMatches (message : Json) (d : EventTypeDefinition) : Bool :=
  match d.match_pattern with
  | .All => true
  | .MatchRules match_rules => match_rules.all (pairOk message)

/-- The `(path, matcher)` pairs of a definition (empty for `All`). -/
def relevantPairs (d : EventTypeDefinition) : List (String × MatchOn) :=
  match d.match_pattern with
  | .All => []
  | .MatchRules match_rules => match_rules

/-- Once the accumulator of the `try_fold` is false it stays false and no
later extraction error surfaces. -/
theorem matchRulesFold_false (message : Json) (rules : List (String × MatchOn)) :
    matchRulesFold message rules false = .ok false := by
  induction rules with
  | nil => rfl
  | cons pr rest ih => simpa [matchRulesFold] using ih

/-- With every pair's path present, the `try_fold` computes the
conjunction of the per-pair checks. -/
theorem matchRulesFold_all (message : Json) (rules : List (String × MatchOn))
    (hp : ∀ pr ∈ rules, (extract_json_field message pr.1).isOk) :
    matchRulesFold message rules true = .ok (rules.all (pairOk message)) := by
  induction rules with
  | nil => rfl
  | cons pr rest ih =>
      have hok : (extract_json_field message pr.1).isOk := hp pr (List.mem_cons_self _ _)
      cases hv : extract_json_field message pr.1 with
      | error e => rw [hv] at hok; simp [Except.isOk, Except.toBool] at hok
      | ok v =>
          have hrest : ∀ q ∈ rest, (extract_json_field message q.1).isOk :=
            fun q hq => hp q (List.mem_cons_of_mem _ hq)
          cases hs : v.asStr with
          | some s =>
              cases hm : matchRule s pr.2 with
              | true =>
                  simp only [matchRulesFold, if_true, hv, hs, hm, List.all_cons, pairOk,
                    Bool.true_and]
                  exact ih hrest
              | false =>
                  simp only [matchRulesFold, if_true, hv, hs, hm, List.all_cons, pairOk,
                    Bool.false_and]
                  exact matchRulesFold_false message rest
          | none =>
              simp only [matchRulesFold, if_true, hv, hs, List.all_cons, pairOk,
                Bool.false_and]
              exact matchRulesFold_false message rest

/-- The definition-scanning loop classifies exactly the matching
definitions when every relevant path is present. -/
theorem matchMessageGo_classifies (event_source : String) (message : Json)
    (l : List EventTypeDefinition)
    (hp : ∀ d ∈ l, d.source = event_source →
      ∀ pr ∈ relevantPairs d, (extract_json_field message pr.1).isOk) :
    matchMessageGo event_source message l
      = .ok ((l.filter (fun d => decide (d.source = event_source) && defMatches message d)).map
          (fun d => d.event_type)) := by
  induction l with
  | nil => rfl
  | cons d rest ih =>
      have hrest : ∀ d' ∈ rest, d'.source = event_source →
          ∀ pr ∈ relevantPairs d', (extract_json_field message pr.1).isOk :=
        fun d' hd' => hp d' (List.mem_cons_of_mem _ hd')
      by_cases hs : d.source = event_source
      · cases hpat : d.match_pattern with
        | All =>
            simp [matchMessageGo, hs, hpat, ih hrest, Except.map, List.filter_cons,
              defMatches]
        | MatchRules match_rules =>
            have hpairs : ∀ pr ∈ match_rules, (extract_json_field message pr.1).isOk := by
              intro pr hpr
              have hrel : relevantPairs d = match_rules := by
                unfold relevantPairs
                rw [hpat]
              exact hp d (List.mem_cons_self _ _) hs pr (hrel ▸ hpr)
            have hfold := matchRulesFold_all message match_rules hpairs
            cases hb : match_rules.all (pairOk message) with
            | true =>
                simp only [matchMessageGo, hs, if_true, hpat, hfold, hb, ih hrest,
                  Except.map, List.filter_cons]
                simp [hpat, defMatches, hb, hs]
            | false =>
                simp only [matchMessageGo, hs, if_true, hpat, hfold, hb, ih hrest,
                  Except.map, List.filter_cons]
                simp [hpat, defMatches, hb, hs]
      · simp only [matchMessageGo, hs, if_false, ih hrest, List.filter_cons]
        simp [hs]

/-- Amended C3: classification succeeds and returns exactly the matching
definitions' event types whenever every `(path, matcher)` path of every
definition for the source is present in the payload; a present non-string
value makes that one definition not match.  (An absent path instead fails
the whole classification with `FieldNotFound` — see the counterexample —
unless an earlier pair of the same definition already evaluated to
false.) -/
theorem match_message_classifies (defs : EventTypeDefinitions) (event_source : String)
    (message : Json)
    (hp : ∀ d ∈ defs.type_definitions, d.source = event_source →
      ∀ pr ∈ relevantPairs d, (extract_json_field message pr.1).isOk) :
    defs.match_message event_source message
      = .ok ((defs.type_definitions.filter
          (fun d => decide (d.source = event_source) && defMatches message d)).map
          (fun d => d.event_type)) :=
  matchMessageGo_classifies event_source message defs.type_definitions hp

/-- Witness for C3's amended theorem: an `All` definition, a matching
`MatchRules` definition, a non-string-valued definition and a
wrong-source definition classify to exactly the first two types. -/
theorem match_message_classifies_witness :
    (∀ d ∈ (⟨[⟨"s", .All, "T1"⟩, ⟨"s", .MatchRules [("a", .Exactly "x")], "T2"⟩,
        ⟨"s", .MatchRules [("n", .Exactly "x")], "T3"⟩,
        ⟨"other", .All, "T4"⟩]⟩ : EventTypeDefinitions).type_definitions,
      d.source = "s" →
      ∀ pr ∈ relevantPairs d,
        (extract_json_field (Json.obj [("a", .str "x"), ("n", .num 3)]) pr.1).isOk)
    ∧ (⟨[⟨"s", .All, "T1"⟩, ⟨"s", .MatchRules [("a", .Exactly "x")], "T2"⟩,
        ⟨"s", .MatchRules [("n", .Exactly "x")], "T3"⟩,
        ⟨"other", .All, "T4"⟩]⟩ : EventTypeDefinitions).match_message "s"
        (Json.obj [("a", .str "x"), ("n", .num 3)])
      = .ok ["T1", "T2"] :=
  ⟨by decide, by
    rw [match_message_classifies _ "s" _ (by decide)]
    rfl⟩

/-- A `${{` template marker occurs somewhere in the character list. -/
def hasMarker : List Char → Bool
  | [] => false
  | c :: rest => markerAt (c :: rest) || hasMarker rest

/-- On marker-free input the lexer accumulates every character into one
`Text` token (or none, when empty). -/
theorem lexGo_no_marker : ∀ (cs acc : List Char), hasMarker cs = false →
    lexGo cs acc
      = if (acc ++ cs).isEmpty then [] else [Token.Text (String.mk (acc ++ cs))] := by
  intro cs
  induction cs with
  | nil =>
      intro acc _
      simp [lexGo]
  | cons c rest ih =>
      intro acc h
      have hm : markerAt (c :: rest) = false := by
        have := congrArg (fun b => b) h
        simp only [hasMarker, Bool.or_eq_false_iff] at h
        exact h.1
      have hr : hasMarker rest = false := by
        simp only [hasMarker, Bool.or_eq_false_iff] at h
        exact h.2
      rw [lexGo]
      simp only [hm, Bool.false_eq_true, if_false]
      rw [ih (acc ++ [c]) hr]
      have hap : (acc ++ [c]) ++ rest = acc ++ c :: rest := by
        simp
      rw [hap]

/-- C9: compiling a leaf source string that contains no `${{` marker and
rendering it against any JSON value succeeds and yields the source string
verbatim. -/
theorem marker_free_leaf_renders_verbatim (s : String) (v : Json)
    (h : hasMarker s.data = false) :
    (do
      let vals ← TemplateValue.tryParse s
      RenderedTemplate.tryParseLeaf vals v) = .ok (.Leaf s) := by
  unfold TemplateValue.tryParse lex
  rw [lexGo_no_marker s.data [] h]
  simp only [List.nil_append]
  by_cases he : s.data.isEmpty
  · rw [if_pos he]
    obtain ⟨d⟩ := s
    simp only [List.isEmpty_iff] at he
    subst he
    have hp : parse [] = .ok [] := by
      simp [parse, parseGo]
    rw [hp]
    rfl
  · rw [if_neg he]
    have hs : String.mk s.data = s := rfl
    rw [hs]
    have hp : parse [Token.Text s] = .ok [TemplateValue.Raw s] := by
      simp [parse, parseGo]
    rw [hp]
    rfl

/-- Witness for C9: the marker-free leaf `hello world` renders to itself
against an arbitrary JSON value. -/
theorem marker_free_leaf_renders_verbatim_witness :
    hasMarker ("hello world").data = false
    ∧ (do
        let vals ← TemplateValue.tryParse ("hello world")
        RenderedTemplate.tryParseLeaf vals (.num 1)) = .ok (.Leaf ("hello world")) :=
  ⟨by decide, marker_free_leaf_renders_verbatim ("hello world") (.num 1) (by decide)⟩

/-- Characters with equal code points are equal. -/
theorem char_toNat_inj (a b : Char) (h : a.toNat = b.toNat) : a = b := by
  apply Char.ext
  have hv : a.val.toNat = b.val.toNat := h
  exact UInt32.toNat.inj hv

/-- `charListLt` is irreflexive. -/
theorem charListLt_irrefl (l : List Char) : charListLt l l = false := by
  induction l with
  | nil => rfl
  | cons a as ih => simp [charListLt, ih]

/-- `charListLt` is asymmetric. -/
theorem charListLt_asymm :
    ∀ l1 l2, charListLt l1 l2 = true → charListLt l2 l1 = true → False := by
  intro l1
  induction l1 with
  | nil =>
      intro l2 h1 h2
      cases l2 with
      | nil => simp [charListLt] at h1
      | cons b bs => simp [charListLt] at h2
  | cons a as ih =>
      intro l2 h1 h2
      cases l2 with
      | nil => simp [charListLt] at h1
      | cons b bs =>
          simp only [charListLt] at h1 h2
          by_cases hab : a.toNat < b.toNat
          · have hba : ¬ b.toNat < a.toNat := by omega
            simp [hab, hba] at h2
          · by_cases hba : b.toNat < a.toNat
            · simp [hab, hba] at h1
            · simp only [hab, hba, if_false] at h1 h2
              exact ih bs h1 h2

/-- `charListLt` is transitive. -/
theorem charListLt_trans :
    ∀ l1 l2 l3, charListLt l1 l2 = true → charListLt l2 l3 = true →
      charListLt l1 l3 = true := by
  intro l1
  induction l1 with
  | nil =>
      intro l2 l3 h1 h2
      cases l2 with
      | nil => simp [charListLt] at h1
      | cons b bs =>
          cases l3 with
          | nil => simp [charListLt] at h2
          | cons c cs => simp [charListLt]
  | cons a as ih =>
      intro l2 l3 h1 h2
      cases l2 with
      | nil => simp [charListLt] at h1
      | cons b bs =>
          cases l3 with
          | nil => simp [charListLt] at h2
          | cons c cs =>
              simp only [charListLt] at h1 h2 ⊢
              by_cases hab : a.toNat < b.toNat
              · by_cases hbc : b.toNat < c.toNat
                · simp [show a.toNat < c.toNat by omega]
                · by_cases hcb : c.toNat < b.toNat
                  · simp [hbc, hcb] at h2
                  · simp [show a.toNat < c.toNat by omega]
              · by_cases hba : b.toNat < a.toNat
                · simp [hab, hba] at h1
                · by_cases hbc : b.toNat < c.toNat
                  · simp [show a.toNat < c.toNat by omega]
                  · by_cases hcb : c.toNat < b.toNat
                    · simp [hbc, hcb] at h2
                    · have hac1 : ¬ a.toNat < c.toNat := by omega
                      have hac2 : ¬ c.toNat < a.toNat := by omega
                      simp only [hab, hba, if_false] at h1
                      simp only [hbc, hcb, if_false] at h2
                      simp only [hac1, hac2, if_false]
                      exact ih bs cs h1 h2

/-- `charListLt` is connex: distinct lists compare one way or the other. -/
theorem charListLt_connex :
    ∀ l1 l2, l1 ≠ l2 → (charListLt l1 l2 || charListLt l2 l1) = true := by
  intro l1
  induction l1 with
  | nil =>
      intro l2 h
      cases l2 with
      | nil => exact absurd rfl h
      | cons b bs => simp [charListLt]
  | cons a as ih =>
      intro l2 h
      cases l2 with
      | nil => simp [charListLt]
      | cons b bs =>
          by_cases hab : a.toNat < b.toNat
          · simp [charListLt, hab]
          · by_cases hba : b.toNat < a.toNat
            · simp [charListLt, hab, hba]
            · have heq : a = b := char_toNat_inj a b (by omega)
              subst heq
              have hne : as ≠ bs := fun hEq => h (by rw [hEq])
              simp only [charListLt, hab, if_false, Bool.or_self]
              simpa [charListLt, hab] using ih bs hne

/-- `strLt` facts lifted from the character lists. -/
theorem strLt_irrefl (a : String) : strLt a a = false := charListLt_irrefl _

/-- `strLt` is asymmetric. -/
theorem strLt_asymm (a b : String) :
    strLt a b = true → strLt b a = true → False := charListLt_asymm _ _

/-- `strLt` is transitive. -/
theorem strLt_trans (a b c : String) :
    strLt a b = true → strLt b c = true → strLt a c = true := charListLt_trans _ _ _

/-- Distinct strings compare one way or the other under `strLt`. -/
theorem strLt_connex (a b : String) (h : a ≠ b) :
    (strLt a b || strLt b a) = true := by
  apply charListLt_connex
  intro hd
  apply h
  cases a
  cases b
  exact congrArg String.mk hd

/-- The derived expiry order is reflexive. -/
theorem expiryLe_refl (a : EventExpiry) : expiryLe a a = true := by
  simp [expiryLe, strLe]

/-- The derived expiry order is transitive. -/
theorem expiryLe_trans (a b c : EventExpiry) :
    expiryLe a b = true → expiryLe b c = true → expiryLe a c = true := by
  simp only [expiryLe, strLe, Bool.or_eq_true, Bool.and_eq_true, decide_eq_true_eq]
  rintro (h1 | ⟨he1, hs1⟩) (h2 | ⟨he2, hs2⟩)
  · exact Or.inl (by omega)
  · exact Or.inl (by omega)
  · exact Or.inl (by omega)
  · refine Or.inr ⟨by omega, ?_⟩
    rcases hs1 with hc1 | ⟨hce1, hr1⟩ <;> rcases hs2 with hc2 | ⟨hce2, hr2⟩
    · exact Or.inl (strLt_trans _ _ _ hc1 hc2)
    · exact Or.inl (hce2 ▸ hc1)
    · exact Or.inl (hce1 ▸ hc2)
    · refine Or.inr ⟨hce1.trans hce2, ?_⟩
      rcases hr1 with hr1 | hr1 <;> rcases hr2 with hr2 | hr2
      · exact Or.inl (strLt_trans _ _ _ hr1 hr2)
      · exact Or.inl (hr2 ▸ hr1)
      · exact Or.inl (hr1 ▸ hr2)
      · exact Or.inr (hr1.trans hr2)

/-- The derived expiry order is total. -/
theorem expiryLe_total (a b : EventExpiry) : expiryLe a b || expiryLe b a := by
  simp only [expiryLe, strLe, Bool.or_eq_true, Bool.and_eq_true, decide_eq_true_eq]
  rcases lt_trichotomy a.expires_at b.expires_at with h | h | h
  · exact Or.inl (Or.inl h)
  · by_cases hc : a.correlation_id = b.correlation_id
    · by_cases hr : a.event_rule = b.event_rule
      · exact Or.inl (Or.inr ⟨h, Or.inr ⟨hc, Or.inr hr⟩⟩)
      · have := strLt_connex a.event_rule b.event_rule hr
        rcases Bool.or_eq_true_iff.mp this with hlt | hlt
        · exact Or.inl (Or.inr ⟨h, Or.inr ⟨hc, Or.inl hlt⟩⟩)
        · exact Or.inr (Or.inr ⟨h.symm, Or.inr ⟨hc.symm, Or.inl hlt⟩⟩)
    · have := strLt_connex a.correlation_id b.correlation_id hc
      rcases Bool.or_eq_true_iff.mp this with hlt | hlt
      · exact Or.inl (Or.inr ⟨h, Or.inl hlt⟩)
      · exact Or.inr (Or.inr ⟨h.symm, Or.inl hlt⟩)
  · exact Or.inr (Or.inl h)

/-- The derived expiry order is antisymmetric. -/
theorem expiryLe_antisymm (a b : EventExpiry) :
    expiryLe a b = true → expiryLe b a = true → a = b := by
  simp only [expiryLe, strLe, Bool.or_eq_true, Bool.and_eq_true, decide_eq_true_eq]
  rintro (h1 | ⟨he1, hs1⟩) (h2 | ⟨he2, hs2⟩)
  · omega
  · omega
  · omega
  · obtain ⟨ea, ca, ra⟩ := a
    obtain ⟨eb, cb, rb⟩ := b
    simp only at he1 he2 hs1 hs2 ⊢
    subst he1
    rcases hs1 with hc1 | ⟨hce1, hr1⟩ <;> rcases hs2 with hc2 | ⟨hce2, hr2⟩
    · exact (strLt_asymm _ _ hc1 hc2).elim
    · subst hce2
      exact absurd hc1 (by simp [strLt_irrefl])
    · subst hce1
      exact absurd hc2 (by simp [strLt_irrefl])
    · subst hce1
      have hr : ra = rb := by
        rcases hr1 with hr1 | hr1 <;> rcases hr2 with hr2 | hr2
        · exact (strLt_asymm _ _ hr1 hr2).elim
        · subst hr2
          exact absurd hr1 (by simp [strLt_irrefl])
        · subst hr1
          exact absurd hr2 (by simp [strLt_irrefl])
        · exact hr1
      rw [hr]

/-- An expiry below another in the derived order expires no later. -/
theorem expiryLe_expires (a b : EventExpiry) (h : expiryLe a b = true) :
    a.expires_at ≤ b.expires_at := by
  simp only [expiryLe, Bool.or_eq_true, Bool.and_eq_true, decide_eq_true_eq] at h
  rcases h with h | ⟨h, _⟩ <;> omega

/-- `lexMin` is `none` exactly on the empty list. -/
theorem lexMin_none_iff (l : List EventExpiry) : lexMin l = none ↔ l = [] := by
  cases l with
  | nil => simp [lexMin]
  | cons e rest =>
      simp only [lexMin]
      cases h : lexMin rest with
      | none => simp
      | some m => cases hle : expiryLe e m <;> simp [hle]

/-- `lexMin` returns a member of the list. -/
theorem lexMin_mem (l : List EventExpiry) :
    ∀ m, lexMin l = some m → m ∈ l := by
  induction l with
  | nil => intro m h; simp [lexMin] at h
  | cons e rest ih =>
      intro m h
      simp only [lexMin] at h
      cases hr : lexMin rest with
      | none =>
          rw [hr] at h
          cases h
          exact List.mem_cons_self _ _
      | some m' =>
          rw [hr] at h
          cases hle : expiryLe e m' <;> simp only [hle, if_true, if_false,
            Bool.false_eq_true, Option.some.injEq] at h <;> subst h
          · exact List.mem_cons_of_mem _ (ih m' hr)
          · exact List.mem_cons_self _ _

/-- `lexMin` is below every member. -/
theorem lexMin_le (l : List EventExpiry) :
    ∀ m, lexMin l = some m → ∀ e ∈ l, expiryLe m e = true := by
  induction l with
  | nil => intro m h; simp [lexMin] at h
  | cons a rest ih =>
      intro m h e he
      simp only [lexMin] at h
      cases hr : lexMin rest with
      | none =>
          rw [hr] at h
          cases h
          have : rest = [] := (lexMin_none_iff rest).1 hr
          subst this
          rcases List.mem_cons.1 he with rfl | he2
          · exact expiryLe_refl _
          · simp at he2
      | some m' =>
          rw [hr] at h
          have him' : ∀ x ∈ rest, expiryLe m' x = true := ih m' hr
          cases hle : expiryLe a m' <;> simp only [hle, if_true, if_false,
            Bool.false_eq_true, Option.some.injEq] at h <;> subst h
          · -- m = m', and ¬ (a ≤ m'), hence m' ≤ a by totality
            have hma : expiryLe m' a = true := by
              have := expiryLe_total a m'
              simp only [hle, Bool.false_or] at this
              exact this
            rcases List.mem_cons.1 he with rfl | he2
            · exact hma
            · exact him' _ he2
          · -- m = a
            rcases List.mem_cons.1 he with rfl | he2
            · exact expiryLe_refl _
            · exact expiryLe_trans _ _ _ hle (him' _ he2)

/-- The head of a sorted list equals the lexicographic minimum of any
permutation of it. -/
theorem sorted_head_eq_lexMin (l l' : List EventExpiry)
    (hs : l.Pairwise (fun x y => expiryLe x y = true)) (hp : l.Perm l') :
    l.head? = lexMin l' := by
  cases l with
  | nil =>
      have : l' = [] := hp.nil_eq.symm  -- placeholder; fixed below if wrong
      simp [this, lexMin]
  | cons a t =>
      have hne : l' ≠ [] := by
        intro hnil
        subst hnil
        exact absurd hp.length_eq (by simp)
      cases hm : lexMin l' with
      | none => exact absurd ((lexMin_none_iff l').1 hm) hne
      | some m =>
          have hmem : m ∈ a :: t := hp.symm.subset (lexMin_mem l' m hm)
          have hamem : a ∈ l' := hp.subset (List.mem_cons_self _ _)
          have h1 : expiryLe a m = true := by
            rcases List.mem_cons.1 hmem with rfl | h2
            · exact expiryLe_refl _
            · exact (List.pairwise_cons.1 hs).1 m h2
          have h2 : expiryLe m a = true := lexMin_le l' m hm a hamem
          simp [expiryLe_antisymm a m h1 h2]

/-- The coupling invariant between the queue state and the amended
conceptual outstanding list: the cached head is the head of the file, the
file is sorted by the derived order, and it holds the same expiries as the
conceptual list. -/
def QueueInv (s : TimingExpiryState) (l : List EventExpiry) : Prop :=
  s.expiry = s.file.head?
  ∧ s.file.Pairwise (fun x y => expiryLe x y = true)
  ∧ s.file.Perm l

/-- `update_expiry` establishes the invariant for any permutation of its
input. -/
theorem queueInv_update (s : TimingExpiryState) (expiries l : List EventExpiry)
    (hp : expiries.Perm l) : QueueInv (s.update_expiry expiries) l := by
  refine ⟨rfl, ?_, ?_⟩
  · exact @List.sorted_mergeSort EventExpiry expiryLe
      (fun a b c => expiryLe_trans a b c) (fun a b => expiryLe_total a b) expiries
  · exact (List.mergeSort_perm expiries expiryLe).trans hp

/-- Every queue operation preserves the invariant, the state stepping by
`applyOp` and the conceptual list by `applyAmendedOp`. -/
theorem queueInv_step (s : TimingExpiryState) (l : List EventExpiry) (op : QueueOp)
    (h : QueueInv s l) : QueueInv (applyOp s op) (applyAmendedOp l op) := by
  obtain ⟨hhead, hsort, hperm⟩ := h
  cases op with
  | add e =>
      exact queueInv_update s (s.file ++ [e]) (l ++ [e])
        (hperm.append (List.Perm.refl [e]))
  | ack now =>
      simp only [applyOp, applyAmendedOp, TimingExpiryState.ack]
      have hminl : lexMin l = s.file.head? := (sorted_head_eq_lexMin _ _ hsort hperm).symm
      cases hexp : s.expiry with
      | none =>
          have hfile : s.file.head? = none := hexp ▸ hhead.symm
          simp only [hexp, hminl, hfile]
          exact ⟨hhead, hsort, hperm⟩
      | some hd =>
          have hfile : s.file.head? = some hd := hexp ▸ hhead.symm
          simp only [hexp, hminl, hfile]
          by_cases hdue : hd.expires_at > now
          · simp only [hdue, if_true]
            exact ⟨hhead, hsort, hperm⟩
          · simp only [hdue, if_false]
            exact queueInv_update s _ _ (hperm.filter _)
  | nack cid =>
      simp only [applyOp, applyAmendedOp, TimingExpiryState.nack]
      have hlen : (s.file.filter (fun exp => exp.correlation_id ≠ cid)).length
          = (l.filter (fun exp => exp.correlation_id ≠ cid)).length :=
        (hperm.filter _).length_eq
      have hlen2 : s.file.length = l.length := hperm.length_eq
      by_cases hc : (l.filter (fun exp => exp.correlation_id ≠ cid)).length = l.length
      · rw [if_pos (by omega), if_pos hc]
        exact ⟨hhead, hsort, hperm⟩
      · rw [if_neg (by omega), if_neg hc]
        exact queueInv_update s _ _ (hperm.filter _)

/-- The invariant holds after replaying any operation sequence from the
empty queue. -/
theorem queueInv_runOps (ops : List QueueOp) :
    QueueInv (runOps ops) (amendedOutstanding ops) := by
  suffices h : ∀ s l, QueueInv s l →
      QueueInv (ops.foldl applyOp s) (ops.foldl applyAmendedOp l) by
    exact h TimingExpiryState.empty [] ⟨rfl, List.Pairwise.nil, List.Perm.refl _⟩
  induction ops with
  | nil => intro s l h; exact h
  | cons op rest ih => intro s l h; exact ih _ _ (queueInv_step s l op h)

unseal List.mergeSort List.merge in
/-- Counterexample to C8: add the same expiry twice, then ack once past
its due time.  The claim's conceptual multiset (ack removes exactly one
expiry, the head) still holds one copy, whose minimum by `expires_at` is
that expiry — but `peek` is `none`, because `remove_expiry` retains only
entries different from the head and so removed both copies. -/
theorem expiry_queue_ack_removes_all_copies :
    (runOps [.add ⟨5, "k", "r"⟩, .add ⟨5, "k", "r"⟩, .ack 10]).peek = none
    ∧ minByExpiresAt (claimOutstanding [.add ⟨5, "k", "r"⟩, .add ⟨5, "k", "r"⟩, .ack 10])
        = some ⟨5, "k", "r"⟩
    ∧ (runOps [.add ⟨5, "k", "r"⟩, .add ⟨5, "k", "r"⟩, .ack 10]).peek
        ≠ minByExpiresAt (claimOutstanding [.add ⟨5, "k", "r"⟩, .add ⟨5, "k", "r"⟩, .ack 10]) :=
  ⟨rfl, rfl, by decide⟩

/-- Amended C8: after any sequence of `add_expiry`/`ack`/`nack` operations
from the empty queue, `peek` equals the minimum by `expires_at` of the
conceptual outstanding multiset in which a successful ack removes *every
copy equal to the head* (and `nack` removes every expiry with its key):
`peek` is `none` exactly when nothing is outstanding, and otherwise it is
an outstanding expiry expiring no later than any other. -/
theorem expiry_queue_peek_is_min (ops : List QueueOp) :
    ((runOps ops).peek = none ↔ amendedOutstanding ops = [])
    ∧ (∀ h, (runOps ops).peek = some h →
        h ∈ amendedOutstanding ops
        ∧ ∀ e ∈ amendedOutstanding ops, h.expires_at ≤ e.expires_at) := by
  obtain ⟨hhead, hsort, hperm⟩ := queueInv_runOps ops
  constructor
  · rw [TimingExpiryState.peek, hhead]
    constructor
    · intro hn
      have : (runOps ops).file = [] := by
        cases hf : (runOps ops).file with
        | nil => rfl
        | cons a t => rw [hf] at hn; simp at hn
      rw [this] at hperm
      exact hperm.nil_eq.symm
    · intro hn
      rw [hn] at hperm
      have : (runOps ops).file = [] := hperm.eq_nil
      rw [this]
      rfl
  · intro h hh
    rw [TimingExpiryState.peek, hhead] at hh
    cases hf : (runOps ops).file with
    | nil => rw [hf] at hh; simp at hh
    | cons a t =>
        rw [hf] at hh
        simp only [List.head?_cons, Option.some.injEq] at hh
        subst hh
        rw [hf] at hperm hsort
        constructor
        · exact hperm.subset (List.mem_cons_self _ _)
        · intro e he
          have hmem : e ∈ a :: t := hperm.symm.subset he
          rcases List.mem_cons.1 hmem with rfl | h2
          · exact le_refl _
          · exact expiryLe_expires _ _ ((List.pairwise_cons.1 hsort).1 e h2)

unseal List.mergeSort List.merge in
/-- Witness for C8's amended theorem at a concrete operation sequence:
after adding expiries at 5 and 3, `peek` yields the one at 3, which is
outstanding and expires no later than the one at 5. -/
theorem expiry_queue_peek_is_min_witness :
    (runOps [.add ⟨5, "k", "r"⟩, .add ⟨3, "j", "q"⟩]).peek = some ⟨3, "j", "q"⟩
    ∧ (⟨3, "j", "q"⟩ : EventExpiry) ∈ amendedOutstanding
        [.add ⟨5, "k", "r"⟩, .add ⟨3, "j", "q"⟩]
    ∧ (⟨3, "j", "q"⟩ : EventExpiry).expires_at ≤ (⟨5, "k", "r"⟩ : EventExpiry).expires_at := by
  have h := (expiry_queue_peek_is_min [.add ⟨5, "k", "r"⟩, .add ⟨3, "j", "q"⟩]).2
    ⟨3, "j", "q"⟩ (by decide)
  exact ⟨by decide, h.1, h.2 ⟨5, "k", "r"⟩ (by decide)⟩
